import Mathlib

/-!
# embedded-choria-sample

A shallow embedding of the Go program: the circuit breaker flag and its RPC
action (`main.go`, `agent.go`), the three ticker loops (`main.go`,
`registration.go`, `facts/facts.go`), the start-up sequence of `runChoria`
(`choria.go`) and the fact file that is published by write-then-rename
(`facts/facts.go`).

Go strings and file contents are byte sequences, written here as lists of
natural numbers below 256.
-/

namespace EmbeddedChoria

/-- A Go `string` / `[]byte`: the sequence of its bytes. -/
abbrev GoString := List Nat

/-- The bytes of an ASCII literal. -/
def strBytes (s : String) : GoString := s.toList.map Char.toNat

/-! ## The circuit breaker flag (`main.go`, `agent.go`) -/

/-- The package level state of `main` that the agent and the worker share:
`var allowWork = true`, together with what has been written to the log. -/
structure MainState where
  allowWork : Bool
  log : List String
deriving DecidableEq, Repr

/-- The state at process start: `var allowWork = true`, nothing logged. -/
def initState : MainState := { allowWork := true, log := [] }

/-- The reply structure of the RPC agent, `type switchReply struct`. -/
structure switchReply where
  Message : String
  State : Bool
deriving DecidableEq, Repr

/-- An inbound `mcorpc.Request`; `switchAction` never reads it. -/
structure Request where
  Agent : String
  Action : String
  Data : GoString
deriving DecidableEq, Repr

/-- The part of `mcorpc.Reply` that an action fills in. -/
structure Reply where
  Statuscode : Nat
  Statusmsg : String
  Data : Option switchReply
deriving DecidableEq, Repr

/-- The verb `%t` of `fmt`: the word true or false. -/
def fmtBool (b : Bool) : String := if b then "true" else "false"

/-- The action `switch`:
`allowWork = !allowWork`, one line on the agent log, and
`reply.Data = &switchReply{fmt.Sprintf(..., allowWork), allowWork}`. -/
def switchAction (_req : Request) (reply : Reply) (st : MainState) : MainState × Reply :=
  let allowWork := !st.allowWork
  ({ allowWork := allowWork,
     log := st.log ++ ["Switches the circuit breaker, allowWork = " ++ fmtBool allowWork] },
   { reply with
     Data := some { Message := "Switched the circuit breaker, allowWork = " ++ fmtBool allowWork,
                    State := allowWork } })

/-- A reply as the RPC framework hands it to an action, before the action ran. -/
def emptyReply : Reply := { Statuscode := 0, Statusmsg := "OK", Data := none }

/-- Sequential invocations of `switchAction`, one per request, each with a fresh reply. -/
def switchSeq : List Request → MainState → MainState
  | [], st => st
  | req :: reqs, st => switchSeq reqs (switchAction req emptyReply st).1

/-! ## The Go `select` statement over a timer channel and `ctx.Done()` -/

/-- The two cases of the `select` in each loop, in source order. -/
inductive Branch where
  | tick
  | done
deriving DecidableEq, Repr

/-- What a goroutine finds at one look at its wait point: which of the two
channels can proceed, and the pseudo-random number the runtime draws to pick
among the cases that can. -/
structure Wait where
  timerReady : Bool
  doneReady : Bool
  rnd : Nat
deriving DecidableEq, Repr

/-- The Go `select` without `default`: it blocks (`none`) while no case can
proceed; a single case that can proceed is taken; among several, one is chosen
by a uniform pseudo-random selection. -/
def goSelect (w : Wait) : Option Branch :=
  match w.timerReady, w.doneReady with
  | false, false => none
  | true, false => some Branch.tick
  | false, true => some Branch.done
  | true, true => if w.rnd % 2 = 0 then some Branch.tick else some Branch.done

/-- A product of `int64` values as the machine keeps it, wrapped into the range
of the type. -/
def wrapInt64 (x : Int) : Int := (x + 9223372036854775808) % 18446744073709551616 - 9223372036854775808

/-- The duration `time.Duration(seconds) * time.Second`, in nanoseconds. -/
def tickDuration (seconds : Int) : Int := wrapInt64 (seconds * 1000000000)

/-- The channel `time.Tick(d)` never delivers when `d <= 0` (it is `nil`). -/
def withInterval (interval : Int) (w : Wait) : Wait :=
  { w with timerReady := w.timerReady && decide (0 < tickDuration interval) }

/-- The branches a loop takes along a schedule of looks at its wait point, up
to and including the first `done`. -/
def selectTrace : List Wait → List Branch
  | [] => []
  | w :: ws =>
    match goSelect w with
    | none => selectTrace ws
    | some Branch.tick => Branch.tick :: selectTrace ws
    | some Branch.done => [Branch.done]

/-- Where a loop stands when its schedule is used up. -/
inductive LoopStatus where
  | waiting
  | blockedOnSend
  | returned
deriving DecidableEq, Repr

/-! ## The worker loop (`main.go`) -/

/-- The body of the tick case of `doWork`: read the flag and log one line. -/
def workTick (st : MainState) : MainState :=
  if st.allowWork then
    { st with log := st.log ++ ["doing work...."] }
  else
    { st with log := st.log ++ ["work cannot be done due to circuit breaker"] }

/-- The loop of `doWork`: `for { select { case <-time.Tick(5s): ...; case <-ctx.Done(): return } }`. -/
def doWork : List Wait → MainState → MainState × LoopStatus
  | [], st => (st, LoopStatus.waiting)
  | w :: ws, st =>
    match goSelect (withInterval 5 w) with
    | none => doWork ws st
    | some Branch.tick => doWork ws (workTick st)
    | some Branch.done => (st, LoopStatus.returned)

/-! ## The registration feed (`registration.go`) -/

/-- The item type `data.RegistrationItem`. -/
structure RegistrationItem where
  Data : GoString
  Destination : String
deriving DecidableEq, Repr

/-- The item that `publish` builds on every call. -/
def helloItem : RegistrationItem :=
  { Data := strBytes "\x7b\"hello\":\"world\"\x7d", Destination := "acme.data" }

/-- The method `publish`: build the item and send it, `output <- item`. The send
blocks for good (`none`) when the channel does not accept it. -/
def publish (accepted : Bool) (output : List RegistrationItem) : Option (List RegistrationItem) :=
  if accepted then some (output ++ [helloItem]) else none

/-- The loop of `StartRegistration`; each look at the wait point comes with
whether the channel accepts the send of that tick. -/
def registrationLoop (interval : Int) :
    List (Wait × Bool) → List RegistrationItem → List RegistrationItem × LoopStatus
  | [], output => (output, LoopStatus.waiting)
  | (w, accepted) :: ws, output =>
    match goSelect (withInterval interval w) with
    | none => registrationLoop interval ws output
    | some Branch.tick =>
      match publish accepted output with
      | none => (output, LoopStatus.blockedOnSend)
      | some output1 => registrationLoop interval ws output1
    | some Branch.done => (output, LoopStatus.returned)

/-- The method `StartRegistration`: one `publish` first, then the loop. -/
def StartRegistration (interval : Int) (accepted0 : Bool) (ws : List (Wait × Bool))
    (output : List RegistrationItem) : List RegistrationItem × LoopStatus :=
  match publish accepted0 output with
  | none => (output, LoopStatus.blockedOnSend)
  | some output1 => registrationLoop interval ws output1

/-! ## The start-up sequence (`choria.go`, `agent.go`) -/

/-- The calls of `runChoria` and `registerAgent` that are visible from outside. -/
inductive Call where
  | goExpose
  | serverRun
  | serverRunReturned
  | agentRegisterAction
  | serverRegisterAgent
  | serverRegisterRegistrationProvider
  | fatal
  | wgDone
deriving DecidableEq, Repr

/-- How the collaborators answer during one run of `runChoria`. -/
structure ChoriaEnv where
  runReturns : Bool
  registerActionErr : Bool
  registerAgentErr : Bool
  registerProviderErr : Bool
deriving DecidableEq, Repr

/-- The function `registerAgent`: `agent.RegisterAction`, on an error return it,
else `cserver.RegisterAgent`. Gives the calls made and whether an error came back. -/
def registerAgent (env : ChoriaEnv) : List Call × Bool :=
  if env.registerActionErr then
    ([Call.agentRegisterAction], true)
  else
    ([Call.agentRegisterAction, Call.serverRegisterAgent], env.registerAgentErr)

/-- The function `runChoria`, as the sequence of calls it makes.
`logrus.Fatalf` ends the process, so nothing follows it, the deferred
`wg.Done()` included. -/
def runChoria (env : ChoriaEnv) : List Call :=
  let t0 := [Call.goExpose, Call.serverRun]
  if env.runReturns then
    let t1 := t0 ++ [Call.serverRunReturned]
    let (calls, err) := registerAgent env
    let t2 := t1 ++ calls
    if err then
      t2 ++ [Call.fatal]
    else
      let t3 := t2 ++ [Call.serverRegisterRegistrationProvider]
      if env.registerProviderErr then
        t3 ++ [Call.fatal]
      else
        t3 ++ [Call.wgDone]
  else
    t0

/-- In the trace, no `b` occurs unless an `a` occurred earlier. -/
def onlyAfter (a b : Call) : List Call → Bool
  | [] => true
  | c :: cs => if c = a then true else if c = b then false else onlyAfter a b cs

/-! ## Concurrent invocations of the action -/

/-- The memory accesses of the program on `allowWork`: the statement
`allowWork = !allowWork` of invocation `i` is a load followed by a store of the
negated loaded value; the worker only loads. -/
inductive Access where
  | load (i : Nat)
  | store (i : Nat)
  | workerRead
deriving DecidableEq, Repr

/-- The flag and, per invocation, the value it has loaded so far. -/
structure RaceState where
  allowWork : Bool
  loaded : Nat → Option Bool
  seen : List Bool

/-- One memory access. -/
def access (st : RaceState) : Access → RaceState
  | Access.load i =>
    { st with loaded := fun j => if j = i then some st.allowWork else st.loaded j }
  | Access.store i =>
    match st.loaded i with
    | some v => { st with allowWork := !v }
    | none => st
  | Access.workerRead => { st with seen := st.seen ++ [st.allowWork] }

/-- A schedule of memory accesses, run in order. -/
def runAccesses (st : RaceState) (sched : List Access) : RaceState :=
  sched.foldl access st

/-- The start of a run with flag value `b`: nothing loaded, nothing read. -/
def raceInit (b : Bool) : RaceState := { allowWork := b, loaded := fun _ => none, seen := [] }

/-- The schedule keeps the invocations apart: no load or store of one
invocation falls between the load and the store of another, and every
invocation that has loaded also stores. The reads of the worker may fall
anywhere, also between the load and the store of an invocation. The first
argument is the invocation that has loaded and not yet stored. -/
def exclusive : Option Nat → List Access → Bool
  | cur, [] => cur.isNone
  | none, Access.load i :: rest => exclusive (some i) rest
  | some _, Access.load _ :: _ => false
  | none, Access.store _ :: _ => false
  | some j, Access.store i :: rest => decide (i = j) && exclusive none rest
  | cur, Access.workerRead :: rest => exclusive cur rest

/-- The number of invocations that have stored in a schedule. -/
def stores : List Access → Nat
  | [] => 0
  | Access.load _ :: rest => stores rest
  | Access.store _ :: rest => stores rest + 1
  | Access.workerRead :: rest => stores rest

/-- What the reads of the worker see when every invocation negates the flag
in one step, at its store: the flag as the invocations before the read left
it. -/
def serialSeen (b : Bool) : List Access → List Bool
  | [] => []
  | Access.load _ :: rest => serialSeen b rest
  | Access.store _ :: rest => serialSeen (!b) rest
  | Access.workerRead :: rest => b :: serialSeen b rest

/-! ## UTF-8 (`unicode/utf8`) -/

/-- The rune U+FFFD, `utf8.RuneError`. -/
def RuneError : Nat := 0xFFFD

/-- The table `first` of `unicode/utf8` together with `acceptRanges`: for a
leading byte of a multi-byte sequence, the length of the sequence and the
range the second byte has to lie in; `none` for a byte that cannot lead. -/
def first (p0 : Nat) : Option (Nat × Nat × Nat) :=
  if 0xC2 ≤ p0 ∧ p0 ≤ 0xDF then some (2, 0x80, 0xBF)
  else if p0 = 0xE0 then some (3, 0xA0, 0xBF)
  else if 0xE1 ≤ p0 ∧ p0 ≤ 0xEC then some (3, 0x80, 0xBF)
  else if p0 = 0xED then some (3, 0x80, 0x9F)
  else if 0xEE ≤ p0 ∧ p0 ≤ 0xEF then some (3, 0x80, 0xBF)
  else if p0 = 0xF0 then some (4, 0x90, 0xBF)
  else if 0xF1 ≤ p0 ∧ p0 ≤ 0xF3 then some (4, 0x80, 0xBF)
  else if p0 = 0xF4 then some (4, 0x80, 0x8F)
  else none

/-- The function `utf8.DecodeRune`: the first rune of the bytes and its width;
`(RuneError, 1)` for a byte sequence that is not a valid encoding. The bit
fields `p0&mask<<k | ...` are written as sums of their disjoint parts. -/
def DecodeRune : List Nat → Nat × Nat
  | [] => (RuneError, 0)
  | p0 :: rest =>
    if p0 < 0x80 then (p0, 1)
    else
      match first p0 with
      | none => (RuneError, 1)
      | some (sz, lo, hi) =>
        match rest with
        | [] => (RuneError, 1)
        | b1 :: rest1 =>
          if b1 < lo ∨ hi < b1 then (RuneError, 1)
          else if sz ≤ 2 then ((p0 % 32) * 64 + b1 % 64, 2)
          else
            match rest1 with
            | [] => (RuneError, 1)
            | b2 :: rest2 =>
              if b2 < 0x80 ∨ 0xBF < b2 then (RuneError, 1)
              else if sz ≤ 3 then ((p0 % 16) * 4096 + (b1 % 64) * 64 + b2 % 64, 3)
              else
                match rest2 with
                | [] => (RuneError, 1)
                | b3 :: _ =>
                  if b3 < 0x80 ∨ 0xBF < b3 then (RuneError, 1)
                  else ((p0 % 8) * 262144 + (b1 % 64) * 4096 + (b2 % 64) * 64 + b3 % 64, 4)

/-- The function `utf8.EncodeRune`: the UTF-8 bytes of a rune; a surrogate or a
value above U+10FFFF is written as U+FFFD. -/
def EncodeRune (r : Nat) : List Nat :=
  if r ≤ 0x7F then [r]
  else if r ≤ 0x7FF then [0xC0 + r / 64, 0x80 + r % 64]
  else if 0x10FFFF < r ∨ (0xD800 ≤ r ∧ r ≤ 0xDFFF) then [0xEF, 0xBF, 0xBD]
  else if r ≤ 0xFFFF then [0xE0 + r / 4096, 0x80 + (r / 64) % 64, 0x80 + r % 64]
  else [0xF0 + r / 262144, 0x80 + (r / 4096) % 64, 0x80 + (r / 64) % 64, 0x80 + r % 64]

/-- The loop of `utf8.Valid`, rune by rune. -/
def ValidAux : Nat → List Nat → Bool
  | 0, s => s.isEmpty
  | _ + 1, [] => true
  | fuel + 1, b :: rest =>
    let (c, size) := DecodeRune (b :: rest)
    if c = RuneError ∧ size = 1 then false
    else ValidAux fuel ((b :: rest).drop size)

/-- The function `utf8.Valid`: the bytes are entirely valid UTF-8. -/
def Valid (s : GoString) : Bool := ValidAux s.length s

/-- A string with every byte that is not part of a valid encoding replaced by
the bytes of U+FFFD: the coercion `encoding/json` documents for string values. -/
def coerceAux : Nat → List Nat → List Nat
  | 0, _ => []
  | _ + 1, [] => []
  | fuel + 1, b :: rest =>
    let (c, size) := DecodeRune (b :: rest)
    if c = RuneError ∧ size = 1 then EncodeRune RuneError ++ coerceAux fuel rest
    else (b :: rest).take size ++ coerceAux fuel ((b :: rest).drop size)

/-- The coercion of a whole string to valid UTF-8. -/
def coerceUTF8 (s : GoString) : GoString := coerceAux s.length s

/-! ## Decimal integers (`strconv`) -/

/-- The digit loop of `strconv.formatBits` in base 10, most significant digit first. -/
def formatBits : Nat → Nat → List Nat
  | 0, _ => []
  | fuel + 1, n => if n < 10 then [48 + n] else formatBits fuel (n / 10) ++ [48 + n % 10]

/-- The decimal form of a natural number. -/
def formatNat (n : Nat) : List Nat := formatBits (n + 1) n

/-- The function `strconv.AppendInt(_, i, 10)`: a minus sign for a negative
number, then the digits of the magnitude. -/
def FormatInt (i : Int) : List Nat :=
  if i < 0 then 45 :: formatNat i.natAbs else formatNat i.natAbs

/-- A byte that is a decimal digit. -/
def isDigit (c : Nat) : Bool := decide (48 ≤ c ∧ c ≤ 57)

/-- The longest run of digits at the front, and what follows it. -/
def takeDigits : List Nat → List Nat × List Nat
  | [] => ([], [])
  | c :: rest =>
    if isDigit c then ((takeDigits rest).1.cons c, (takeDigits rest).2)
    else ([], c :: rest)

/-- The number a run of digits denotes. -/
def digitsValue (ds : List Nat) : Nat := ds.foldl (fun a d => 10 * a + (d - 48)) 0

/-- A JSON number stored into an `int64` field: the literal has to be an
integer literal of JSON (no leading zero, no fraction, no exponent) and
`strconv.ParseInt(_, 10, 64)` has to accept it. Gives the value and the rest
of the input. -/
def parseInt64 (s : List Nat) : Option (Int × List Nat) :=
  let neg := s.head? = some 45
  let s1 := if neg then s.drop 1 else s
  let ds := (takeDigits s1).1
  let rest := (takeDigits s1).2
  if ds = [] then none
  else if ds.head? = some 48 ∧ 1 < ds.length then none
  else if rest.head? = some 46 ∨ rest.head? = some 101 ∨ rest.head? = some 69 then none
  else
    let v : Int := if neg then -(digitsValue ds : Int) else (digitsValue ds : Int)
    if -9223372036854775808 ≤ v ∧ v ≤ 9223372036854775807 then some (v, rest) else none

/-! ## JSON strings (`encoding/json`) -/

/-- The table `hex` of `encoding/json`: the lower-case hexadecimal digit. -/
def hex (n : Nat) : Nat := if n < 10 then 48 + n else 87 + n

/-- The table `htmlSafeSet`: the ASCII bytes written without an escape. -/
def htmlSafe (b : Nat) : Bool :=
  decide (0x20 ≤ b ∧ b < 0x80 ∧ b ≠ 34 ∧ b ≠ 38 ∧ b ≠ 60 ∧ b ≠ 62 ∧ b ≠ 92)

/-- The escape of an ASCII byte outside `htmlSafeSet`: a backslash followed by
the byte itself for the backslash and the quote, by a letter for the five
control characters that have one, and by `u00` and two hex digits otherwise. -/
def escapeByte (b : Nat) : List Nat :=
  if b = 92 ∨ b = 34 then [92, b]
  else if b = 8 then [92, 98]
  else if b = 12 then [92, 102]
  else if b = 10 then [92, 110]
  else if b = 13 then [92, 114]
  else if b = 9 then [92, 116]
  else [92, 117, 48, 48, hex (b / 16), hex (b % 16)]

/-- The loop of `appendString` with `escapeHTML` set, as `json.Marshal` runs it:
safe ASCII is copied, other ASCII escaped, an invalid byte becomes the escape
of U+FFFD, U+2028 and U+2029 are escaped, every other rune is copied. -/
def appendStringAux : Nat → List Nat → List Nat
  | 0, _ => []
  | _ + 1, [] => []
  | fuel + 1, b :: rest =>
    if b < 0x80 then
      (if htmlSafe b then [b] else escapeByte b) ++ appendStringAux fuel rest
    else
      let (c, size) := DecodeRune (b :: rest)
      if c = RuneError ∧ size = 1 then
        [92, 117, 102, 102, 102, 100] ++ appendStringAux fuel rest
      else if c = 0x2028 ∨ c = 0x2029 then
        [92, 117, 50, 48, 50, hex (c % 16)] ++ appendStringAux fuel ((b :: rest).drop size)
      else
        (b :: rest).take size ++ appendStringAux fuel ((b :: rest).drop size)

/-- The JSON string literal of a Go string, quotes included. -/
def appendString (src : GoString) : List Nat :=
  [34] ++ appendStringAux src.length src ++ [34]

/-- The value of one hexadecimal digit, as in `getu4`. -/
def hexVal (c : Nat) : Option Nat :=
  if 48 ≤ c ∧ c ≤ 57 then some (c - 48)
  else if 97 ≤ c ∧ c ≤ 102 then some (c - 97 + 10)
  else if 65 ≤ c ∧ c ≤ 70 then some (c - 65 + 10)
  else none

/-- The function `getu4`: the rune of a `\uXXXX` escape at the front of the
bytes, `none` where Go returns -1. -/
def getu4 : List Nat → Option Nat
  | 92 :: 117 :: h1 :: h2 :: h3 :: h4 :: _ =>
    match hexVal h1, hexVal h2, hexVal h3, hexVal h4 with
    | some a, some b, some c, some d => some (((a * 16 + b) * 16 + c) * 16 + d)
    | _, _, _, _ => none
  | _ => none

/-- The function `utf16.DecodeRune` on the runes of two successive escapes, the
second absent where `getu4` gave -1. -/
def utf16DecodeRune (r1 : Nat) (r2 : Option Nat) : Nat :=
  match r2 with
  | some r2 =>
    if 0xD800 ≤ r1 ∧ r1 < 0xDC00 ∧ 0xDC00 ≤ r2 ∧ r2 < 0xE000 then
      (r1 - 0xD800) * 1024 + (r2 - 0xDC00) + 0x10000
    else RuneError
  | none => RuneError

/-- Put decoded bytes in front of what the rest of the literal decodes to. -/
def emit (bs : List Nat) (r : Option (List Nat × List Nat)) : Option (List Nat × List Nat) :=
  r.map (fun p => (bs ++ p.1, p.2))

/-- The body of a JSON string literal, read from behind the opening quote up
to the closing one: the scanner of `encoding/json` (which refuses a control
character and an escape it does not know) followed by `unquoteBytes`. Gives
the decoded string and the input behind the closing quote. -/
def unquoteAux : Nat → List Nat → Option (List Nat × List Nat)
  | 0, _ => none
  | _ + 1, [] => none
  | fuel + 1, c :: rest =>
    if c = 34 then some ([], rest)
    else if c = 92 then
      match rest with
      | [] => none
      | e :: rest1 =>
        if e = 34 ∨ e = 92 ∨ e = 47 then emit [e] (unquoteAux fuel rest1)
        else if e = 98 then emit [8] (unquoteAux fuel rest1)
        else if e = 102 then emit [12] (unquoteAux fuel rest1)
        else if e = 110 then emit [10] (unquoteAux fuel rest1)
        else if e = 114 then emit [13] (unquoteAux fuel rest1)
        else if e = 116 then emit [9] (unquoteAux fuel rest1)
        else if e = 117 then
          match getu4 (c :: e :: rest1) with
          | none => none
          | some rr =>
            if 0xD800 ≤ rr ∧ rr < 0xE000 then
              let dec := utf16DecodeRune rr (getu4 (rest1.drop 4))
              if dec ≠ RuneError then emit (EncodeRune dec) (unquoteAux fuel (rest1.drop 10))
              else emit (EncodeRune RuneError) (unquoteAux fuel (rest1.drop 4))
            else emit (EncodeRune rr) (unquoteAux fuel (rest1.drop 4))
        else none
    else if c < 0x20 then none
    else if c < 0x80 then emit [c] (unquoteAux fuel rest)
    else
      let (rr, size) := DecodeRune (c :: rest)
      emit (EncodeRune rr) (unquoteAux fuel ((c :: rest).drop size))

/-- A JSON string literal at the front of the input: the decoded string and
the rest of the input. -/
def parseString : List Nat → Option (GoString × List Nat)
  | 34 :: rest => unquoteAux rest.length rest
  | _ => none

/-! ## The fact document (`facts/facts.go`, `encoding/json`) -/

/-- The struct `Factdata`, fields `identity` and `time` in JSON. -/
structure Factdata where
  Identity : GoString
  Time : Int
deriving DecidableEq, Repr

/-- The function `Data`: `Factdata{conf.Identity, time.Now().Unix()}`. -/
def Data (identity : GoString) (now : Int) : Factdata := { Identity := identity, Time := now }

/-- The compact JSON document `json.Marshal` writes for a `Factdata`. -/
def marshalBytes (d : Factdata) : List Nat :=
  strBytes "\x7b\"identity\":" ++ appendString d.Identity ++ strBytes ",\"time\":"
    ++ FormatInt d.Time ++ strBytes "\x7d"

/-- What can go wrong in a file operation or in marshalling. -/
inductive Err where
  | exist
  | notExist
  | ioError
  | marshal
deriving DecidableEq, Repr

/-- The call `json.Marshal(Data())`; a struct of a string and an `int64` has no
value that `json.Marshal` refuses. -/
def Marshal (d : Factdata) : Except Err (List Nat) := Except.ok (marshalBytes d)

/-- A value of the JSON fragment the decoder reads: a string or an integer. -/
inductive JValue where
  | str (s : GoString)
  | num (i : Int)
deriving DecidableEq, Repr

/-- JSON white space at the front of the input is skipped. -/
def skipWS : List Nat → List Nat
  | [] => []
  | c :: rest => if c = 32 ∨ c = 9 ∨ c = 10 ∨ c = 13 then skipWS rest else c :: rest

/-- A string or integer value at the front of the input. -/
def parseValue (s : List Nat) : Option (JValue × List Nat) :=
  if s.head? = some 34 then (parseString s).map (fun p => (JValue.str p.1, p.2))
  else (parseInt64 s).map (fun p => (JValue.num p.1, p.2))

/-- Lower case of an ASCII letter. -/
def asciiLower (c : Nat) : Nat := if 65 ≤ c ∧ c ≤ 90 then c + 32 else c

/-- The match of an object key with a field name, exact or differing in the
case of ASCII letters. -/
def foldEq (key name : GoString) : Bool := decide (key.map asciiLower = name)

/-- Store a member into the struct: `identity` takes a string, `time` an
integer, a member of another name is dropped, a value of the wrong kind is an
error. -/
def storeField (d : Factdata) (key : GoString) (v : JValue) : Option Factdata :=
  if foldEq key (strBytes "identity") then
    match v with
    | JValue.str s => some { d with Identity := s }
    | JValue.num _ => none
  else if foldEq key (strBytes "time") then
    match v with
    | JValue.num i => some { d with Time := i }
    | JValue.str _ => none
  else some d

/-- The members of an object, from behind the opening brace or a comma up to
the closing brace. -/
def parseMembers : Nat → Factdata → List Nat → Option (Factdata × List Nat)
  | 0, _, _ => none
  | fuel + 1, d, s =>
    match parseString (skipWS s) with
    | none => none
    | some (key, r1) =>
      match skipWS r1 with
      | 58 :: r2 =>
        match parseValue (skipWS r2) with
        | none => none
        | some (v, r3) =>
          match storeField d key v with
          | none => none
          | some d1 =>
            match skipWS r3 with
            | 44 :: r4 => parseMembers fuel d1 r4
            | 125 :: r4 => some (d1, r4)
            | _ => none
      | _ => none

/-- The call `json.Unmarshal(data, &d)` for a zero `Factdata` d, on the JSON
documents that are one object whose members are strings and integers; `none`
for an input Go refuses and for a document outside this fragment. -/
def Unmarshal (data : List Nat) : Option Factdata :=
  match skipWS data with
  | 123 :: r =>
    match skipWS r with
    | 125 :: r1 => if skipWS r1 = [] then some { Identity := [], Time := 0 } else none
    | _ =>
      match parseMembers data.length { Identity := [], Time := 0 } r with
      | some (d, r1) => if skipWS r1 = [] then some d else none
      | none => none
  | _ => none

/-! ## The file system (`os`, `io/ioutil`) -/

/-- A file name. -/
abbrev Path := GoString

/-- The files of the machine: the content under each name, `none` for a name
that does not exist. -/
abbrev FS := Path → Option (List Nat)

/-- The file system with the content under one name replaced. -/
def FS.store (fs : FS) (p : Path) (c : List Nat) : FS :=
  fun q => if q = p then some c else fs q

/-- The function `os.Remove`, its error dropped as the deferred calls drop it. -/
def Remove (name : Path) (fs : FS) : FS :=
  fun q => if q = name then none else fs q

/-- The function `nextSuffix` of `io/ioutil`: nine decimal digits drawn from
the random number `r`, `strconv.Itoa(int(1e9 + r%1e9))[1:]`. -/
def nextSuffix (r : Nat) : GoString := (formatNat (1000000000 + r % 1000000000)).drop 1

/-- The name `filepath.Join(dir, pfx+nextSuffix())` for a directory name
without a trailing separator. -/
def tempName (dir pfx : GoString) (r : Nat) : Path := dir ++ [47] ++ (pfx ++ nextSuffix r)

/-- The attempts of `ioutil.TempFile`, one per random number: a name that
exists is skipped (`O_EXCL`); at the first free name the file is created empty,
unless opening fails for another reason; when the attempts run out the error
is that the file exists. -/
def TempFileAux (dir pfx : GoString) (openErr : Bool) (fs : FS) :
    List Nat → Except Err (Path × FS)
  | [] => Except.error Err.exist
  | r :: rs =>
    if (fs (tempName dir pfx r)).isSome then TempFileAux dir pfx openErr fs rs
    else if openErr then Except.error Err.ioError
    else Except.ok (tempName dir pfx r, fs.store (tempName dir pfx r) [])

/-- The function `ioutil.TempFile("", pfx)`, in the directory `os.TempDir()`,
with at most 10000 attempts. -/
def TempFile (tmpdir pfx : GoString) (rand : List Nat) (openErr : Bool) (fs : FS) :
    Except Err (Path × FS) :=
  TempFileAux tmpdir pfx openErr fs (rand.take 10000)

/-- How a call of `ioutil.WriteFile` ends: well, with a failure to open the
file, or with a failure after `n` bytes have reached the file. -/
inductive WriteFault where
  | ok
  | openFails
  | shortWrite (n : Nat)
deriving DecidableEq, Repr

/-- The function `ioutil.WriteFile`: open with truncation, write, close. -/
def WriteFile (name : Path) (data : List Nat) (fault : WriteFault) (fs : FS) : FS × Option Err :=
  match fault with
  | WriteFault.ok => (fs.store name data, none)
  | WriteFault.openFails => (fs, some Err.ioError)
  | WriteFault.shortWrite n => (fs.store name (data.take n), some Err.ioError)

/-- The function `os.Rename`: either it fails and changes nothing, or the new
name gets the content of the old one and the old name is gone, in one step. -/
def Rename (oldname newname : Path) (fails : Bool) (fs : FS) : FS × Option Err :=
  if fails then (fs, some Err.ioError)
  else
    match fs oldname with
    | none => (fs, some Err.notExist)
    | some c => (fun q => if q = newname then some c else if q = oldname then none else fs q, none)

/-! ## Publishing the facts (`facts/facts.go`) -/

/-- What the machine does during one call of `write`. -/
structure WriteEnv where
  rand : List Nat
  tempErr : Bool
  now : Int
  writeFault : WriteFault
  renameErr : Bool
deriving DecidableEq, Repr

/-- The file operations of `write`. -/
inductive FsOp where
  | tempFile
  | writeFile
  | rename
  | remove
deriving DecidableEq, Repr

/-- One file operation with the file system before and after it. -/
structure FsStep where
  op : FsOp
  pre : FS
  post : FS

/-- A call of `write`: its file operations in order, the file system it leaves
and the error it returns. -/
structure WriteRun where
  steps : List FsStep
  fs : FS
  err : Option Err

/-- The deferred `os.Remove(tf.Name())` and the return. -/
def finishWrite (tf : Path) (steps : List FsStep) (fs : FS) (err : Option Err) : WriteRun :=
  { steps := steps ++ [{ op := FsOp.remove, pre := fs, post := Remove tf fs }],
    fs := Remove tf fs,
    err := err }

/-- The function `write`, with `f.Name()` and `conf.Identity` of the package
as arguments: create a temp file, marshal `Data()`, write it to the temp
file, rename the temp file onto `f.Name()`; each error is returned at once,
behind the deferred removal of the temp file. -/
def write (tmpdir identity : GoString) (fname : Path) (env : WriteEnv) (fs0 : FS) : WriteRun :=
  match TempFile tmpdir [] env.rand env.tempErr fs0 with
  | Except.error e =>
    { steps := [{ op := FsOp.tempFile, pre := fs0, post := fs0 }], fs := fs0, err := some e }
  | Except.ok (tf, fs1) =>
    let s1 : FsStep := { op := FsOp.tempFile, pre := fs0, post := fs1 }
    match Marshal (Data identity env.now) with
    | Except.error e => finishWrite tf [s1] fs1 (some e)
    | Except.ok j =>
      match WriteFile tf j env.writeFault fs1 with
      | (fs2, some e) => finishWrite tf [s1, { op := FsOp.writeFile, pre := fs1, post := fs2 }] fs2 (some e)
      | (fs2, none) =>
        let s2 : FsStep := { op := FsOp.writeFile, pre := fs1, post := fs2 }
        match Rename tf fname env.renameErr fs2 with
        | (fs3, some e) => finishWrite tf [s1, s2, { op := FsOp.rename, pre := fs2, post := fs3 }] fs3 (some e)
        | (fs3, none) => finishWrite tf [s1, s2, { op := FsOp.rename, pre := fs2, post := fs3 }] fs3 none

/-- A run of the loop of `Expose`: the file systems the machine went through,
the errors of the calls of `write` in order, the file system at the end and
where the loop stands. -/
structure LoopRun where
  observed : List FS
  errs : List (Option Err)
  fs : FS
  status : LoopStatus

/-- The loop of `Expose`,
`for { select { case <-time.Tick(60s): writer(); case <-ctx.Done(): return } }`;
`writer` logs the error of `write` and goes on. -/
def exposeLoop (tmpdir identity : GoString) (fname : Path) : List (Wait × WriteEnv) → FS → LoopRun
  | [], fs => { observed := [], errs := [], fs := fs, status := LoopStatus.waiting }
  | (w, env) :: rest, fs =>
    match goSelect (withInterval 60 w) with
    | none => exposeLoop tmpdir identity fname rest fs
    | some Branch.tick =>
      let r := write tmpdir identity fname env fs
      let l := exposeLoop tmpdir identity fname rest r.fs
      { l with observed := r.steps.map (fun s => s.post) ++ l.observed, errs := r.err :: l.errs }
    | some Branch.done => { observed := [], errs := [], fs := fs, status := LoopStatus.returned }

/-- What the machine does during one run of `Expose`. -/
structure ExposeEnv where
  tmpdir : GoString
  identity : GoString
  rand : List Nat
  tempErr : Bool
  firstWrite : WriteEnv
  ticks : List (Wait × WriteEnv)

/-- A run of `Expose`: the name handed to discovery in
`cfg.Choria.FactSourceFile`, the file systems the machine went through from
that moment until the loop returned, the errors of the calls of `write`, the
file system at the end (behind the deferred `os.Remove(f.Name())` when the
loop returned) and where the loop stands. -/
structure ExposeRun where
  factSourceFile : Path
  observed : List FS
  errs : List (Option Err)
  fs : FS
  status : LoopStatus

/-- The function `Expose`; `none` when the temp file cannot be created and
`logrus.Fatalf` ends the process. -/
def Expose (env : ExposeEnv) (fs0 : FS) : Option ExposeRun :=
  match TempFile env.tmpdir (strBytes "acmefacts") env.rand env.tempErr fs0 with
  | Except.error _ => none
  | Except.ok (f, fs1) =>
    let r := write env.tmpdir env.identity f env.firstWrite fs1
    let l := exposeLoop env.tmpdir env.identity f env.ticks r.fs
    some { factSourceFile := f,
           observed := fs1 :: (r.steps.map (fun s => s.post) ++ l.observed),
           errs := r.err :: l.errs,
           fs := if l.status = LoopStatus.returned then Remove f l.fs else l.fs,
           status := l.status }

/-- The file operations of the loop of `Expose` in order, each with the file
system before and after it: those of the call of `write` of every tick taken. -/
def exposeSteps (tmpdir identity : GoString) (fname : Path) :
    List (Wait × WriteEnv) → FS → List FsStep
  | [], _ => []
  | (w, env) :: rest, fs =>
    match goSelect (withInterval 60 w) with
    | none => exposeSteps tmpdir identity fname rest fs
    | some Branch.tick =>
      (write tmpdir identity fname env fs).steps
        ++ exposeSteps tmpdir identity fname rest (write tmpdir identity fname env fs).fs
    | some Branch.done => []

/-- The file operations of a run of `Expose` behind the handover of the path
`f`, from the file system `fs1` of that moment: those of the first call of
`write`, then those of the loop. -/
def exposeOps (env : ExposeEnv) (f : Path) (fs1 : FS) : List FsStep :=
  (write env.tmpdir env.identity f env.firstWrite fs1).steps
    ++ exposeSteps env.tmpdir env.identity f env.ticks
        (write env.tmpdir env.identity f env.firstWrite fs1).fs

/-- The published file holds the complete JSON document of a `Factdata` with
the identity of the process and some time stamp. -/
def Published (identity : GoString) (f : Path) (fs : FS) : Prop :=
  ∃ t : Int, fs f = some (marshalBytes { Identity := identity, Time := t })

/-- The file system with no file at all. -/
def emptyFS : FS := fun _ => none

/-- A machine on which every file operation succeeds, at a fixed time. -/
def goodWrite : WriteEnv :=
  { rand := [2], tempErr := false, now := 1700000000, writeFault := WriteFault.ok,
    renameErr := false }

/-- A machine on which the rename of `write` fails. -/
def renameFails : WriteEnv :=
  { rand := [2], tempErr := false, now := 1700000000, writeFault := WriteFault.ok,
    renameErr := true }

/-- A run of `Expose` for the identity node1: the first write fails at the rename,
the write of the first tick succeeds, then cancellation is taken. -/
def sampleExpose : ExposeEnv :=
  { tmpdir := strBytes "/tmp", identity := strBytes "node1", rand := [1], tempErr := false,
    firstWrite := renameFails,
    ticks := [({ timerReady := true, doneReady := false, rnd := 0 }, goodWrite),
              ({ timerReady := false, doneReady := true, rnd := 0 }, goodWrite)] }

/-! ## The flag under sequential invocations -/

theorem switchAction_allowWork (req : Request) (reply : Reply) (st : MainState) :
    (switchAction req reply st).1.allowWork = !st.allowWork := rfl

theorem switchSeq_allowWork (reqs : List Request) :
    ∀ st : MainState,
      (switchSeq reqs st).allowWork = xor st.allowWork (decide (reqs.length % 2 = 1)) := by
  induction reqs with
  | nil => intro st; simp [switchSeq]
  | cons req reqs ih =>
    intro st
    simp only [switchSeq, ih, switchAction_allowWork, List.length_cons]
    rcases Nat.mod_two_eq_zero_or_one reqs.length with h | h
    · have h2 : (reqs.length + 1) % 2 = 1 := by omega
      cases hb : st.allowWork <;> simp [h, h2]
    · have h2 : (reqs.length + 1) % 2 = 0 := by omega
      cases hb : st.allowWork <;> simp [h, h2]

/-- C1: after n sequential invocations of `switchAction`, with any requests,
the flag equals its initial value XOR (n is odd); the flag starts as true; two
successive invocations restore the value the flag had before them. -/
theorem C1_flag_after_n_toggles :
    (∀ (b : Bool) (log : List String) (reqs : List Request),
      (switchSeq reqs { allowWork := b, log := log }).allowWork
        = xor b (decide (reqs.length % 2 = 1)))
    ∧ initState.allowWork = true
    ∧ (∀ (st : MainState) (r1 r2 : Request) (p1 p2 : Reply),
        (switchAction r2 p2 (switchAction r1 p1 st).1).1.allowWork = st.allowWork) := by
  refine ⟨fun b log reqs => switchSeq_allowWork reqs _, rfl, ?_⟩
  intro st r1 r2 p1 p2
  simp [switchAction_allowWork]

/-- C2: one invocation of `switchAction` stores the negated flag, and sets the
reply data to a `switchReply` whose State is the new value and whose Message is
the confirmation text followed by the new value as a word; the status fields of
the reply are left alone, and nothing depends on the request. -/
theorem C2_switchAction_result (b : Bool) (log : List String) (req : Request) (reply : Reply) :
    (switchAction req reply { allowWork := b, log := log }).1.allowWork = !b
    ∧ (switchAction req reply { allowWork := b, log := log }).2.Data
        = some { Message := "Switched the circuit breaker, allowWork = "
                              ++ (if (!b) = true then "true" else "false"),
                 State := !b }
    ∧ (switchAction req reply { allowWork := b, log := log }).2.Statuscode = reply.Statuscode
    ∧ (switchAction req reply { allowWork := b, log := log }).2.Statusmsg = reply.Statusmsg
    ∧ (∀ req2 : Request,
        switchAction req2 reply { allowWork := b, log := log }
          = switchAction req reply { allowWork := b, log := log }) := by
  refine ⟨rfl, rfl, rfl, rfl, fun _ => rfl⟩

/-! ## The ticker loops -/

theorem tickDuration_five : 0 < tickDuration 5 := by decide

theorem tickDuration_sixty : 0 < tickDuration 60 := by decide


theorem registrationLoop_run (interval : Int) (ws : List (Wait × Bool)) :
    ∀ (k : Nat) (output : List RegistrationItem),
      (∀ p ∈ ws, p.2 = true) →
      selectTrace (ws.map (fun p => withInterval interval p.1))
        = List.replicate k Branch.tick ++ [Branch.done] →
      registrationLoop interval ws output
        = (output ++ List.replicate k helloItem, LoopStatus.returned) := by
  induction ws with
  | nil =>
    intro k output _ h
    simp [selectTrace] at h
  | cons p ws ih =>
    intro k output hacc h
    obtain ⟨w, accepted⟩ := p
    have hw : accepted = true := hacc (w, accepted) (List.mem_cons_self _ _)
    have hrest : ∀ p ∈ ws, p.2 = true := fun p hp => hacc p (List.mem_cons_of_mem _ hp)
    subst hw
    simp only [List.map_cons, selectTrace] at h
    simp only [registrationLoop]
    cases hsel : goSelect (withInterval interval w) with
    | none =>
      rw [hsel] at h
      exact ih k output hrest h
    | some br =>
      rw [hsel] at h
      cases br with
      | tick =>
        cases k with
        | zero => simp at h
        | succ k =>
          simp only [List.replicate_succ, List.cons_append, List.cons.injEq, true_and] at h
          simp only [publish, if_true]
          rw [ih k (output ++ [helloItem]) hrest h]
          simp [List.replicate_succ]
      | done =>
        cases k with
        | zero => simp
        | succ k => simp [List.replicate_succ] at h

/-- C6: in a run of `StartRegistration` in which the channel accepts every send
and k ticks are taken before cancellation is, exactly k+1 items are sent, behind
what the channel held, and the method returns; one item is sent before the wait
point is looked at at all; the item has destination acme.data and the hello
world payload. -/
theorem C6_registration_feed (interval : Int) (k : Nat) (ws : List (Wait × Bool))
    (output : List RegistrationItem)
    (hacc : ∀ p ∈ ws, p.2 = true)
    (htrace : selectTrace (ws.map (fun p => withInterval interval p.1))
      = List.replicate k Branch.tick ++ [Branch.done]) :
    StartRegistration interval true ws output
      = (output ++ List.replicate (k + 1) helloItem, LoopStatus.returned)
    ∧ StartRegistration interval true [] output = (output ++ [helloItem], LoopStatus.waiting)
    ∧ helloItem.Destination = "acme.data"
    ∧ helloItem.Data = strBytes "\x7b\"hello\":\"world\"\x7d" := by
  refine ⟨?_, rfl, rfl, rfl⟩
  simp only [StartRegistration, publish, if_true]
  rw [registrationLoop_run interval ws k _ hacc htrace]
  simp [List.replicate_succ]

/-- A run of `StartRegistration` with two ticks before cancellation. -/
theorem C6_registration_feed_witness :
    StartRegistration 60 true
        [({ timerReady := true, doneReady := false, rnd := 0 }, true),
         ({ timerReady := false, doneReady := false, rnd := 0 }, true),
         ({ timerReady := true, doneReady := false, rnd := 0 }, true),
         ({ timerReady := false, doneReady := true, rnd := 0 }, true)] []
      = ([] ++ List.replicate (2 + 1) helloItem, LoopStatus.returned)
    ∧ StartRegistration 60 true [] [] = ([] ++ [helloItem], LoopStatus.waiting)
    ∧ helloItem.Destination = "acme.data"
    ∧ helloItem.Data = strBytes "\x7b\"hello\":\"world\"\x7d" :=
  C6_registration_feed 60 2 _ [] (by decide) (by decide)

theorem workTick_allowWork (st : MainState) : (workTick st).allowWork = st.allowWork := by
  unfold workTick
  split <;> rfl

/-- The line the worker logs at a tick, by the value of the flag. -/
theorem workTick_log (st : MainState) :
    (workTick st).log
      = st.log ++ [if st.allowWork = true then "doing work...."
                   else "work cannot be done due to circuit breaker"] := by
  unfold workTick
  split <;> simp_all

theorem doWork_run (ws : List Wait) :
    ∀ (k : Nat) (st : MainState),
      selectTrace (ws.map (withInterval 5)) = List.replicate k Branch.tick ++ [Branch.done] →
      doWork ws st
        = ({ allowWork := st.allowWork,
             log := st.log ++ List.replicate k
               (if st.allowWork = true then "doing work...."
                else "work cannot be done due to circuit breaker") },
           LoopStatus.returned) := by
  induction ws with
  | nil =>
    intro k st h
    simp [selectTrace] at h
  | cons w ws ih =>
    intro k st h
    simp only [List.map_cons, selectTrace] at h
    simp only [doWork]
    cases hsel : goSelect (withInterval 5 w) with
    | none =>
      rw [hsel] at h
      exact ih k st h
    | some br =>
      rw [hsel] at h
      cases br with
      | tick =>
        cases k with
        | zero => simp at h
        | succ k =>
          simp only [List.replicate_succ, List.cons_append, List.cons.injEq, true_and] at h
          rw [ih k (workTick st) h]
          simp [workTick_allowWork, workTick_log, List.replicate_succ]
      | done =>
        cases k with
        | zero => simp
        | succ k => simp [List.replicate_succ] at h

/-- C8 as stated fails: in the run in which cancellation is taken at the first
look at the wait point (no tick), the worker has logged nothing: zero producer
invocations, not one. -/
theorem C8_counterexample :
    selectTrace ([{ timerReady := false, doneReady := true, rnd := 0 }].map (withInterval 5))
      = List.replicate 0 Branch.tick ++ [Branch.done]
    ∧ doWork [{ timerReady := false, doneReady := true, rnd := 0 }] initState
      = (initState, LoopStatus.returned)
    ∧ (doWork [{ timerReady := false, doneReady := true, rnd := 0 }] initState).1.log.length
      ≠ 0 + 1 := by
  decide

/-- C8, amended: the worker runs its producer once per tick taken and not
before the first: a run in which k ticks are taken before cancellation is logs
exactly k lines, each the line for the flag value (doing work if true, blocked by
the circuit breaker if false), and returns; with no look at the wait point yet
nothing has run; no invocation changes the flag. -/
theorem C8_worker_loop (k : Nat) (ws : List Wait) (st : MainState)
    (htrace : selectTrace (ws.map (withInterval 5))
      = List.replicate k Branch.tick ++ [Branch.done]) :
    doWork ws st
      = ({ allowWork := st.allowWork,
           log := st.log ++ List.replicate k
             (if st.allowWork = true then "doing work...."
              else "work cannot be done due to circuit breaker") },
         LoopStatus.returned)
    ∧ ((doWork ws st).1.log.length = st.log.length + k)
    ∧ doWork [] st = (st, LoopStatus.waiting)
    ∧ (workTick st).allowWork = st.allowWork
    ∧ (doWork ws st).1.allowWork = st.allowWork := by
  have h := doWork_run ws k st htrace
  refine ⟨h, ?_, rfl, workTick_allowWork st, ?_⟩
  · rw [h]; simp
  · rw [h]

/-- A run of `doWork` with two ticks before cancellation. -/
theorem C8_worker_loop_witness :
    doWork [{ timerReady := true, doneReady := false, rnd := 0 },
            { timerReady := true, doneReady := false, rnd := 0 },
            { timerReady := false, doneReady := true, rnd := 0 }] initState
      = ({ allowWork := initState.allowWork,
           log := initState.log ++ List.replicate 2
             (if initState.allowWork = true then "doing work...."
              else "work cannot be done due to circuit breaker") },
         LoopStatus.returned)
    ∧ ((doWork [{ timerReady := true, doneReady := false, rnd := 0 },
            { timerReady := true, doneReady := false, rnd := 0 },
            { timerReady := false, doneReady := true, rnd := 0 }] initState).1.log.length
        = initState.log.length + 2)
    ∧ doWork [] initState = (initState, LoopStatus.waiting)
    ∧ (workTick initState).allowWork = initState.allowWork
    ∧ (doWork [{ timerReady := true, doneReady := false, rnd := 0 },
            { timerReady := true, doneReady := false, rnd := 0 },
            { timerReady := false, doneReady := true, rnd := 0 }] initState).1.allowWork
        = initState.allowWork :=
  C8_worker_loop 2 _ initState (by decide)

/-! ## The start-up sequence -/

/-- C7: in every trace of `runChoria`, `cserver.RegisterAgent` and
`cserver.RegisterRegistrationProvider` occur only after `cserver.Run` has
returned, so neither occurs before the session start, and the registration of
the provider occurs only after that of the agent; when no collaborator reports
an error both registrations do occur, in that order. -/
theorem C7_registration_order (env : ChoriaEnv) :
    onlyAfter Call.serverRunReturned Call.serverRegisterAgent (runChoria env) = true
    ∧ onlyAfter Call.serverRunReturned Call.serverRegisterRegistrationProvider (runChoria env)
        = true
    ∧ onlyAfter Call.serverRun Call.serverRegisterAgent (runChoria env) = true
    ∧ onlyAfter Call.serverRun Call.serverRegisterRegistrationProvider (runChoria env) = true
    ∧ onlyAfter Call.serverRegisterAgent Call.serverRegisterRegistrationProvider (runChoria env)
        = true
    ∧ runChoria { runReturns := true, registerActionErr := false, registerAgentErr := false,
                  registerProviderErr := false }
        = [Call.goExpose, Call.serverRun, Call.serverRunReturned, Call.agentRegisterAction,
           Call.serverRegisterAgent, Call.serverRegisterRegistrationProvider, Call.wgDone] := by
  obtain ⟨a, b, c, d⟩ := env
  cases a <;> cases b <;> cases c <;> cases d <;> decide

/-! ## Concurrent invocations -/

theorem xor_not_parity (a : Bool) (n : Nat) :
    xor (!a) (decide (n % 2 = 1)) = xor a (decide ((n + 1) % 2 = 1)) := by
  rcases Nat.mod_two_eq_zero_or_one n with h | h
  · have h2 : (n + 1) % 2 = 1 := by omega
    cases a <;> simp [h, h2]
  · have h2 : (n + 1) % 2 = 0 := by omega
    cases a <;> simp [h, h2]

/-- A schedule that keeps the invocations apart, run from any state in which
the invocation that has loaded holds the present value of the flag. -/
theorem runAccesses_exclusive (sched : List Access) :
    ∀ (cur : Option Nat) (st : RaceState),
      exclusive cur sched = true →
      (∀ j, cur = some j → st.loaded j = some st.allowWork) →
      (runAccesses st sched).allowWork = xor st.allowWork (decide (stores sched % 2 = 1))
      ∧ (runAccesses st sched).seen = st.seen ++ serialSeen st.allowWork sched := by
  induction sched with
  | nil =>
    intro cur st _ _
    simp [runAccesses, stores, serialSeen]
  | cons a rest ih =>
    intro cur st hex hinv
    cases a with
    | load i =>
      cases cur with
      | some j => simp [exclusive] at hex
      | none =>
        simp only [exclusive] at hex
        have h := ih (some i) (access st (Access.load i)) hex (by
          intro j hj
          simp only [Option.some.injEq] at hj
          subst hj
          simp [access])
        simp only [runAccesses, List.foldl_cons, stores, serialSeen] at h ⊢
        simpa [access] using h
    | store i =>
      cases cur with
      | none => simp [exclusive] at hex
      | some j =>
        simp only [exclusive, Bool.and_eq_true, decide_eq_true_eq] at hex
        obtain ⟨hij, hex⟩ := hex
        subst hij
        have hl : st.loaded i = some st.allowWork := hinv i rfl
        have hflag : (access st (Access.store i)).allowWork = !st.allowWork := by
          simp [access, hl]
        have hseen : (access st (Access.store i)).seen = st.seen := by
          simp [access, hl]
        have h := ih none (access st (Access.store i)) hex (by intro j hj; simp at hj)
        simp only [runAccesses, List.foldl_cons, stores, serialSeen] at h ⊢
        rw [h.1, h.2, hflag, hseen]
        exact ⟨xor_not_parity _ _, rfl⟩
    | workerRead =>
      simp only [exclusive] at hex
      have h := ih cur (access st Access.workerRead) hex (by
        intro j hj
        simpa [access] using hinv j hj)
      simp only [runAccesses, List.foldl_cons, stores, serialSeen] at h ⊢
      rw [h.1, h.2]
      simp [access]

/-- C10 as stated fails: `allowWork = !allowWork` is a load and a store with no
lock around them; when two invocations both load before either stores, the
flag ends negated once, where every sequential order of two invocations gives
back the initial value. -/
theorem C10_counterexample :
    (runAccesses (raceInit true)
        [Access.load 0, Access.load 1, Access.store 0, Access.store 1]).allowWork = false
    ∧ xor true (decide (2 % 2 = 1)) = true
    ∧ (runAccesses (raceInit true)
        [Access.load 0, Access.load 1, Access.store 0, Access.store 1]).allowWork
      ≠ xor true (decide (2 % 2 = 1)) := by
  decide

/-- C10, amended: in every execution of invocations of `switchAction`
concurrent with reads of the worker in which no load or store of one
invocation falls between the load and the store of another (the reads of the
worker may fall anywhere, also between the load and the store of an
invocation), the final flag equals the initial value XOR the parity of the
number of invocations, and every read of the worker sees the flag as the
invocations that stored before it left it. The code itself keeps no
invocation out while another is between its load and its store: a second
invocation loads the value the first has loaded, and when two invocations
both load before either stores, the two toggles collapse into one, for every
initial value. -/
theorem C10_exclusive_invocations (b : Bool) (sched : List Access)
    (h : exclusive none sched = true) :
    (runAccesses (raceInit b) sched).allowWork = xor b (decide (stores sched % 2 = 1))
    ∧ (runAccesses (raceInit b) sched).seen = serialSeen b sched
    ∧ (∀ (st : RaceState) (i j : Nat),
        (access (access st (Access.load i)) (Access.load j)).loaded j = some st.allowWork
        ∧ (access (access st (Access.load i)) (Access.load j)).loaded i = some st.allowWork)
    ∧ (∀ (v : Bool) (i j : Nat), i ≠ j →
        (runAccesses (raceInit v)
          [Access.load i, Access.load j, Access.store i, Access.store j]).allowWork = !v
        ∧ exclusive none [Access.load i, Access.load j, Access.store i, Access.store j]
            = false) := by
  obtain ⟨h1, h2⟩ := runAccesses_exclusive sched none (raceInit b) h (by intro j hj; simp at hj)
  refine ⟨h1, ?_, ?_, ?_⟩
  · rw [h2]; simp [raceInit]
  · intro st i j
    by_cases hij : i = j <;> simp [access, hij]
  · intro v i j hij
    have hji : ¬ j = i := fun e => hij e.symm
    refine ⟨?_, by simp [exclusive]⟩
    simp [runAccesses, access, raceInit, hij, hji]

/-- A schedule with a read of the worker between the load and the store of the
first of two invocations. -/
theorem C10_exclusive_invocations_witness :
    exclusive none [Access.load 0, Access.workerRead, Access.store 0, Access.workerRead,
        Access.load 1, Access.store 1] = true
    ∧ (runAccesses (raceInit true) [Access.load 0, Access.workerRead, Access.store 0,
        Access.workerRead, Access.load 1, Access.store 1]).allowWork
      = xor true (decide (stores [Access.load 0, Access.workerRead, Access.store 0,
        Access.workerRead, Access.load 1, Access.store 1] % 2 = 1))
    ∧ (runAccesses (raceInit true) [Access.load 0, Access.workerRead, Access.store 0,
        Access.workerRead, Access.load 1, Access.store 1]).seen = [true, false] :=
  ⟨by decide,
    (C10_exclusive_invocations true [Access.load 0, Access.workerRead, Access.store 0,
        Access.workerRead, Access.load 1, Access.store 1] (by decide)).1,
    by decide⟩

/-! ## The file system -/

theorem store_apply_ne (fs : FS) (p q : Path) (c : List Nat) (h : q ≠ p) :
    (fs.store p c) q = fs q := by
  simp [FS.store, h]

theorem store_apply_self (fs : FS) (p : Path) (c : List Nat) : (fs.store p c) p = some c := by
  simp [FS.store]

theorem Remove_apply_ne (fs : FS) (p q : Path) (h : q ≠ p) : (Remove p fs) q = fs q := by
  simp [Remove, h]

theorem TempFileAux_ok (dir pfx : GoString) (openErr : Bool) (fs : FS) (rs : List Nat) :
    ∀ (tf : Path) (fs1 : FS), TempFileAux dir pfx openErr fs rs = Except.ok (tf, fs1) →
      fs tf = none ∧ fs1 = fs.store tf [] ∧ ∃ r, tf = tempName dir pfx r := by
  induction rs with
  | nil => intro tf fs1 h; simp [TempFileAux] at h
  | cons r rs ih =>
    intro tf fs1 h
    simp only [TempFileAux] at h
    split at h
    · exact ih tf fs1 h
    · rename_i hfree
      split at h
      · simp at h
      · simp only [Except.ok.injEq, Prod.mk.injEq] at h
        obtain ⟨h1, h2⟩ := h
        subst h1
        refine ⟨?_, h2.symm, r, rfl⟩
        cases hc : fs (tempName dir pfx r) with
        | none => rfl
        | some c => simp [hc] at hfree

theorem TempFile_ok (tmpdir pfx : GoString) (rand : List Nat) (openErr : Bool) (fs : FS)
    (tf : Path) (fs1 : FS) (h : TempFile tmpdir pfx rand openErr fs = Except.ok (tf, fs1)) :
    fs tf = none ∧ fs1 = fs.store tf [] ∧ ∃ r, tf = tempName tmpdir pfx r :=
  TempFileAux_ok tmpdir pfx openErr fs _ tf fs1 h

/-- The properties of one call of `write` whose temp file is not the published file. -/
theorem write_spec (tmpdir identity : GoString) (fname : Path) (env : WriteEnv) (fs0 : FS)
    (htf : ∀ tf fs1, TempFile tmpdir [] env.rand env.tempErr fs0 = Except.ok (tf, fs1) →
      tf ≠ fname) :
    (∀ s ∈ (write tmpdir identity fname env fs0).steps,
        s.op ≠ FsOp.rename → s.post fname = s.pre fname)
    ∧ (∀ s ∈ (write tmpdir identity fname env fs0).steps,
        s.post fname = fs0 fname
        ∨ s.post fname = some (marshalBytes (Data identity env.now)))
    ∧ (write tmpdir identity fname env fs0).steps.Pairwise
        (fun a b => a.post fname = some (marshalBytes (Data identity env.now)) →
          b.post fname = some (marshalBytes (Data identity env.now)))
    ∧ (∀ s ∈ (write tmpdir identity fname env fs0).steps,
        s.post fname = some (marshalBytes (Data identity env.now)) →
        (write tmpdir identity fname env fs0).fs fname
          = some (marshalBytes (Data identity env.now)))
    ∧ ((write tmpdir identity fname env fs0).err ≠ none →
        (write tmpdir identity fname env fs0).fs fname = fs0 fname)
    ∧ ((write tmpdir identity fname env fs0).err = none →
        (write tmpdir identity fname env fs0).fs fname
          = some (marshalBytes (Data identity env.now)))
    ∧ ((write tmpdir identity fname env fs0).fs fname = fs0 fname
        ∨ (write tmpdir identity fname env fs0).fs fname
          = some (marshalBytes (Data identity env.now))) := by
  unfold write
  cases hT : TempFile tmpdir [] env.rand env.tempErr fs0 with
  | error e => simp
  | ok p =>
    obtain ⟨tf, fs1⟩ := p
    have hne : tf ≠ fname := htf tf fs1 hT
    have hne2 : fname ≠ tf := fun h => hne h.symm
    obtain ⟨_, hfs1, _⟩ := TempFile_ok _ _ _ _ _ _ _ hT
    subst hfs1
    simp only [Marshal]
    cases hw : env.writeFault with
    | ok =>
      cases hr : env.renameErr with
      | true =>
        simp [WriteFile, Rename, finishWrite, store_apply_ne, Remove_apply_ne, hne2]
      | false =>
        simp [WriteFile, Rename, finishWrite, store_apply_ne, store_apply_self,
          Remove_apply_ne, hne2]
    | openFails =>
      simp [WriteFile, finishWrite, store_apply_ne, Remove_apply_ne, hne2]
    | shortWrite n =>
      simp [WriteFile, finishWrite, store_apply_ne, Remove_apply_ne, hne2]

/-- With the published file in place, the temp file of `write` has another name. -/
theorem temp_ne_of_exists (tmpdir : GoString) (fname : Path) (env : WriteEnv) (fs0 : FS)
    (hex : fs0 fname ≠ none) :
    ∀ tf fs1, TempFile tmpdir [] env.rand env.tempErr fs0 = Except.ok (tf, fs1) →
      tf ≠ fname := by
  intro tf fs1 h heq
  obtain ⟨hfree, _, _⟩ := TempFile_ok _ _ _ _ _ _ _ h
  rw [heq] at hfree
  exact hex hfree

theorem marshalBytes_ne_nil (d : Factdata) : marshalBytes d ≠ [] := by
  simp [marshalBytes, strBytes]

theorem not_published_of_empty (identity : GoString) (f : Path) (fs : FS)
    (h : fs f = some []) : ¬ Published identity f fs := by
  rintro ⟨t, ht⟩
  rw [h] at ht
  simp only [Option.some.injEq] at ht
  exact marshalBytes_ne_nil _ ht.symm

theorem exposeLoop_tick (tmpdir identity : GoString) (fname : Path) (w : Wait) (env : WriteEnv)
    (rest : List (Wait × WriteEnv)) (fs : FS)
    (h : goSelect (withInterval 60 w) = some Branch.tick) :
    exposeLoop tmpdir identity fname ((w, env) :: rest) fs
      = { observed := (write tmpdir identity fname env fs).steps.map (fun s => s.post)
            ++ (exposeLoop tmpdir identity fname rest (write tmpdir identity fname env fs).fs).observed,
          errs := (write tmpdir identity fname env fs).err
            :: (exposeLoop tmpdir identity fname rest (write tmpdir identity fname env fs).fs).errs,
          fs := (exposeLoop tmpdir identity fname rest (write tmpdir identity fname env fs).fs).fs,
          status :=
            (exposeLoop tmpdir identity fname rest (write tmpdir identity fname env fs).fs).status } := by
  simp only [exposeLoop, h]

theorem exposeLoop_published (tmpdir identity : GoString) (fname : Path)
    (ticks : List (Wait × WriteEnv)) :
    ∀ fs : FS, Published identity fname fs →
      (∀ s ∈ (exposeLoop tmpdir identity fname ticks fs).observed, Published identity fname s)
      ∧ Published identity fname (exposeLoop tmpdir identity fname ticks fs).fs := by
  induction ticks with
  | nil => intro fs h; simp [exposeLoop, h]
  | cons p rest ih =>
    intro fs h
    obtain ⟨w, env⟩ := p
    cases hsel : goSelect (withInterval 60 w) with
    | none =>
      have : exposeLoop tmpdir identity fname ((w, env) :: rest) fs
          = exposeLoop tmpdir identity fname rest fs := by
        simp only [exposeLoop, hsel]
      rw [this]
      exact ih fs h
    | some br =>
      cases br with
      | done => simp [exposeLoop, hsel, h]
      | tick =>
        rw [exposeLoop_tick _ _ _ _ _ _ _ hsel]
        have hex : fs fname ≠ none := by
          obtain ⟨t, ht⟩ := h
          simp [ht]
        obtain ⟨_, h2, _, _, _, _, h7⟩ :=
          write_spec tmpdir identity fname env fs (temp_ne_of_exists tmpdir fname env fs hex)
        have hfin : Published identity fname (write tmpdir identity fname env fs).fs := by
          rcases h7 with h7 | h7
          · obtain ⟨t, ht⟩ := h
            exact ⟨t, by rw [h7, ht]⟩
          · exact ⟨env.now, h7⟩
        obtain ⟨ih1, ih2⟩ := ih _ hfin
        refine ⟨?_, ih2⟩
        intro s hs
        simp only [List.mem_append, List.mem_map] at hs
        rcases hs with ⟨st, hst, rfl⟩ | hs
        · rcases h2 st hst with h2 | h2
          · obtain ⟨t, ht⟩ := h
            exact ⟨t, by rw [h2, ht]⟩
          · exact ⟨env.now, h2⟩
        · exact ih1 s hs

theorem exposeLoop_reserved (tmpdir identity : GoString) (fname : Path)
    (ticks : List (Wait × WriteEnv)) :
    ∀ fs : FS, fs fname = some [] →
      (∀ s ∈ (exposeLoop tmpdir identity fname ticks fs).observed,
        s fname = some [] ∨ Published identity fname s)
      ∧ (exposeLoop tmpdir identity fname ticks fs).observed.Pairwise
          (fun a b => Published identity fname a → Published identity fname b)
      ∧ ((exposeLoop tmpdir identity fname ticks fs).fs fname = some []
          ∨ Published identity fname (exposeLoop tmpdir identity fname ticks fs).fs)
      ∧ (none ∈ (exposeLoop tmpdir identity fname ticks fs).errs →
          Published identity fname (exposeLoop tmpdir identity fname ticks fs).fs) := by
  induction ticks with
  | nil => intro fs h; simp [exposeLoop, h]
  | cons p rest ih =>
    intro fs h
    obtain ⟨w, env⟩ := p
    cases hsel : goSelect (withInterval 60 w) with
    | none =>
      have : exposeLoop tmpdir identity fname ((w, env) :: rest) fs
          = exposeLoop tmpdir identity fname rest fs := by
        simp only [exposeLoop, hsel]
      rw [this]
      exact ih fs h
    | some br =>
      cases br with
      | done => simp [exposeLoop, hsel, h]
      | tick =>
        rw [exposeLoop_tick _ _ _ _ _ _ _ hsel]
        have hex : fs fname ≠ none := by simp [h]
        obtain ⟨_, h2, h3, h4, _, h6, h7⟩ :=
          write_spec tmpdir identity fname env fs (temp_ne_of_exists tmpdir fname env fs hex)
        rw [h] at h2 h7
        -- a state of this call that is published forces the call to end published
        have hstep : ∀ s ∈ (write tmpdir identity fname env fs).steps,
            Published identity fname s.post →
            s.post fname = some (marshalBytes (Data identity env.now)) := by
          intro s hs hp
          rcases h2 s hs with h2 | h2
          · exact absurd hp (not_published_of_empty _ _ _ h2)
          · exact h2
        have hfin : ∀ s ∈ (write tmpdir identity fname env fs).steps,
            Published identity fname s.post →
            Published identity fname (write tmpdir identity fname env fs).fs :=
          fun s hs hp => ⟨env.now, h4 s hs (hstep s hs hp)⟩
        have hrest : (∀ s ∈ (exposeLoop tmpdir identity fname rest
              (write tmpdir identity fname env fs).fs).observed,
              s fname = some [] ∨ Published identity fname s)
            ∧ (exposeLoop tmpdir identity fname rest
                (write tmpdir identity fname env fs).fs).observed.Pairwise
                (fun a b => Published identity fname a → Published identity fname b)
            ∧ ((exposeLoop tmpdir identity fname rest
                (write tmpdir identity fname env fs).fs).fs fname = some []
              ∨ Published identity fname (exposeLoop tmpdir identity fname rest
                (write tmpdir identity fname env fs).fs).fs)
            ∧ (none ∈ (exposeLoop tmpdir identity fname rest
                (write tmpdir identity fname env fs).fs).errs →
              Published identity fname (exposeLoop tmpdir identity fname rest
                (write tmpdir identity fname env fs).fs).fs) := by
          rcases h7 with h7 | h7
          · exact ih _ h7
          · obtain ⟨p1, p2⟩ := exposeLoop_published tmpdir identity fname rest _ ⟨env.now, h7⟩
            refine ⟨fun s hs => Or.inr (p1 s hs), ?_, Or.inr p2, fun _ => p2⟩
            exact List.pairwise_of_forall_mem_list (fun a _ b hb _ => p1 b hb)
        obtain ⟨r1, r2, r3, r4⟩ := hrest
        refine ⟨?_, ?_, r3, ?_⟩
        · intro s hs
          simp only [List.mem_append, List.mem_map] at hs
          rcases hs with ⟨st, hst, rfl⟩ | hs
          · rcases h2 st hst with h2 | h2
            · exact Or.inl h2
            · exact Or.inr ⟨env.now, h2⟩
          · exact r1 s hs
        · rw [List.pairwise_append]
          refine ⟨?_, r2, ?_⟩
          · rw [List.pairwise_map]
            refine List.Pairwise.imp_of_mem ?_ h3
            intro a b ha hb hab hp
            exact ⟨env.now, hab (hstep a ha hp)⟩
          · intro a ha b hb hp
            simp only [List.mem_map] at ha
            obtain ⟨st, hst, rfl⟩ := ha
            have hpub := hfin st hst hp
            exact (exposeLoop_published tmpdir identity fname rest _ hpub).1 b hb
        · intro hnone
          simp only [List.mem_cons] at hnone
          rcases hnone with hnone | hnone
          · have := h6 hnone.symm
            exact (exposeLoop_published tmpdir identity fname rest _ ⟨env.now, this⟩).2
          · exact r4 hnone

/-! ## UTF-8 -/

theorem first_cases (b sz lo hi : Nat) (h : first b = some (sz, lo, hi)) :
    (sz = 2 ∧ lo = 0x80 ∧ hi = 0xBF ∧ 0xC2 ≤ b ∧ b ≤ 0xDF)
    ∨ (sz = 3 ∧ 0xE0 ≤ b ∧ b ≤ 0xEF ∧ 0x80 ≤ lo ∧ hi ≤ 0xBF
        ∧ (b = 0xE0 → 0xA0 ≤ lo) ∧ (b = 0xED → hi ≤ 0x9F))
    ∨ (sz = 4 ∧ 0xF0 ≤ b ∧ b ≤ 0xF4 ∧ 0x80 ≤ lo ∧ hi ≤ 0xBF
        ∧ (b = 0xF0 → 0x90 ≤ lo) ∧ (b = 0xF4 → hi ≤ 0x8F)) := by
  unfold first at h
  split_ifs at h <;> simp only [Option.some.injEq, Prod.mk.injEq] at h <;>
    obtain ⟨rfl, rfl, rfl⟩ := h <;> omega

theorem EncodeRune_two (b b1 : Nat) (h0 : 0xC2 ≤ b) (h1 : b ≤ 0xDF) (h2 : 0x80 ≤ b1)
    (h3 : b1 ≤ 0xBF) : EncodeRune (b % 32 * 64 + b1 % 64) = [b, b1] := by
  unfold EncodeRune
  have e1 : ¬ (b % 32 * 64 + b1 % 64 ≤ 0x7F) := by omega
  have e2 : b % 32 * 64 + b1 % 64 ≤ 0x7FF := by omega
  rw [if_neg e1, if_pos e2]
  congr 1
  · omega
  · congr 1; omega

theorem EncodeRune_three (b b1 b2 : Nat) (h0 : 0xE0 ≤ b) (h1 : b ≤ 0xEF)
    (h2 : 0x80 ≤ b1) (h3 : b1 ≤ 0xBF) (h4 : 0x80 ≤ b2) (h5 : b2 ≤ 0xBF)
    (h6 : b = 0xE0 → 0xA0 ≤ b1) (h7 : b = 0xED → b1 ≤ 0x9F) :
    EncodeRune (b % 16 * 4096 + b1 % 64 * 64 + b2 % 64) = [b, b1, b2] := by
  unfold EncodeRune
  have e1 : ¬ (b % 16 * 4096 + b1 % 64 * 64 + b2 % 64 ≤ 0x7F) := by omega
  have e2 : ¬ (b % 16 * 4096 + b1 % 64 * 64 + b2 % 64 ≤ 0x7FF) := by omega
  have e3 : ¬ (0x10FFFF < b % 16 * 4096 + b1 % 64 * 64 + b2 % 64
      ∨ (0xD800 ≤ b % 16 * 4096 + b1 % 64 * 64 + b2 % 64
        ∧ b % 16 * 4096 + b1 % 64 * 64 + b2 % 64 ≤ 0xDFFF)) := by omega
  have e4 : b % 16 * 4096 + b1 % 64 * 64 + b2 % 64 ≤ 0xFFFF := by omega
  rw [if_neg e1, if_neg e2, if_neg e3, if_pos e4]
  congr 1
  · omega
  · congr 1
    · omega
    · congr 1; omega

theorem EncodeRune_four (b b1 b2 b3 : Nat) (h0 : 0xF0 ≤ b) (h1 : b ≤ 0xF4)
    (h2 : 0x80 ≤ b1) (h3 : b1 ≤ 0xBF) (h4 : 0x80 ≤ b2) (h5 : b2 ≤ 0xBF)
    (h8 : 0x80 ≤ b3) (h9 : b3 ≤ 0xBF)
    (h6 : b = 0xF0 → 0x90 ≤ b1) (h7 : b = 0xF4 → b1 ≤ 0x8F) :
    EncodeRune (b % 8 * 262144 + b1 % 64 * 4096 + b2 % 64 * 64 + b3 % 64) = [b, b1, b2, b3] := by
  unfold EncodeRune
  have e1 : ¬ (b % 8 * 262144 + b1 % 64 * 4096 + b2 % 64 * 64 + b3 % 64 ≤ 0x7F) := by omega
  have e2 : ¬ (b % 8 * 262144 + b1 % 64 * 4096 + b2 % 64 * 64 + b3 % 64 ≤ 0x7FF) := by omega
  have e3 : ¬ (0x10FFFF < b % 8 * 262144 + b1 % 64 * 4096 + b2 % 64 * 64 + b3 % 64
      ∨ (0xD800 ≤ b % 8 * 262144 + b1 % 64 * 4096 + b2 % 64 * 64 + b3 % 64
        ∧ b % 8 * 262144 + b1 % 64 * 4096 + b2 % 64 * 64 + b3 % 64 ≤ 0xDFFF)) := by omega
  have e4 : ¬ (b % 8 * 262144 + b1 % 64 * 4096 + b2 % 64 * 64 + b3 % 64 ≤ 0xFFFF) := by omega
  rw [if_neg e1, if_neg e2, if_neg e3, if_neg e4]
  congr 1
  · omega
  · congr 1
    · omega
    · congr 1
      · omega
      · congr 1; omega


/-- A multi-byte rune that `DecodeRune` accepts: its width, its bytes, and what
`EncodeRune` makes of it. -/
theorem DecodeRune_multi (b : Nat) (rest : List Nat) (c size : Nat)
    (hb : 0x80 ≤ b) (hd : DecodeRune (b :: rest) = (c, size))
    (hok : ¬ (c = RuneError ∧ size = 1)) :
    2 ≤ size ∧ size ≤ (b :: rest).length
    ∧ EncodeRune c = (b :: rest).take size
    ∧ (∀ more, DecodeRune ((b :: rest).take size ++ more) = (c, size))
    ∧ (∀ x ∈ (b :: rest).take size, 0x80 ≤ x) := by
  have hb2 : ¬ b < 0x80 := by omega
  simp only [DecodeRune, hb2, if_false] at hd
  cases hf : first b with
  | none =>
    rw [hf] at hd
    simp only [Prod.mk.injEq] at hd
    exact absurd ⟨hd.1.symm, hd.2.symm⟩ hok
  | some t =>
    obtain ⟨sz, lo, hi⟩ := t
    rw [hf] at hd
    rcases first_cases b sz lo hi hf with ⟨rfl, rfl, rfl, g0, g1⟩ | ⟨rfl, g0, g1, g2, g3, g4, g5⟩
      | ⟨rfl, g0, g1, g2, g3, g4, g5⟩
    · -- two bytes
      rcases rest with _ | ⟨b1, r⟩
      · simp only [Prod.mk.injEq] at hd
        exact absurd ⟨hd.1.symm, hd.2.symm⟩ hok
      · simp only [le_refl, if_true] at hd
        split_ifs at hd with hc1
        · simp only [Prod.mk.injEq] at hd
          exact absurd ⟨hd.1.symm, hd.2.symm⟩ hok
        · simp only [Prod.mk.injEq] at hd
          obtain ⟨rfl, rfl⟩ := hd
          refine ⟨by omega, by simp, ?_, ?_, ?_⟩
          · simp only [List.take_succ_cons, List.take_zero]
            exact EncodeRune_two b b1 g0 g1 (by omega) (by omega)
          · intro more
            simp [DecodeRune, hb2, hf, hc1]
          · simp
            omega
    · -- three bytes
      rcases rest with _ | ⟨b1, _ | ⟨b2, r⟩⟩
      · simp only [Prod.mk.injEq] at hd
        exact absurd ⟨hd.1.symm, hd.2.symm⟩ hok
      · simp only [Nat.reduceLeDiff, if_false] at hd
        split_ifs at hd <;> simp only [Prod.mk.injEq] at hd <;>
          exact absurd ⟨hd.1.symm, hd.2.symm⟩ hok
      · simp only [Nat.reduceLeDiff, if_false, le_refl, if_true] at hd
        split_ifs at hd with hc1 hc2
        · simp only [Prod.mk.injEq] at hd
          exact absurd ⟨hd.1.symm, hd.2.symm⟩ hok
        · simp only [Prod.mk.injEq] at hd
          exact absurd ⟨hd.1.symm, hd.2.symm⟩ hok
        · simp only [Prod.mk.injEq] at hd
          obtain ⟨rfl, rfl⟩ := hd
          refine ⟨by omega, by simp, ?_, ?_, ?_⟩
          · simp only [List.take_succ_cons, List.take_zero]
            exact EncodeRune_three b b1 b2 g0 g1 (by omega) (by omega) (by omega) (by omega)
              (fun h => by have := g4 h; omega) (fun h => by have := g5 h; omega)
          · intro more
            simp [DecodeRune, hb2, hf, hc1, hc2]
          · simp
            omega
    · -- four bytes
      rcases rest with _ | ⟨b1, _ | ⟨b2, _ | ⟨b3, r⟩⟩⟩
      · simp only [Prod.mk.injEq] at hd
        exact absurd ⟨hd.1.symm, hd.2.symm⟩ hok
      · simp only [Nat.reduceLeDiff, if_false] at hd
        split_ifs at hd <;> simp only [Prod.mk.injEq] at hd <;>
          exact absurd ⟨hd.1.symm, hd.2.symm⟩ hok
      · simp only [Nat.reduceLeDiff, if_false] at hd
        split_ifs at hd <;> simp only [Prod.mk.injEq] at hd <;>
          exact absurd ⟨hd.1.symm, hd.2.symm⟩ hok
      · simp only [Nat.reduceLeDiff, if_false] at hd
        split_ifs at hd with hc1 hc2 hc3
        · simp only [Prod.mk.injEq] at hd
          exact absurd ⟨hd.1.symm, hd.2.symm⟩ hok
        · simp only [Prod.mk.injEq] at hd
          exact absurd ⟨hd.1.symm, hd.2.symm⟩ hok
        · simp only [Prod.mk.injEq] at hd
          exact absurd ⟨hd.1.symm, hd.2.symm⟩ hok
        · simp only [Prod.mk.injEq] at hd
          obtain ⟨rfl, rfl⟩ := hd
          refine ⟨by omega, by simp, ?_, ?_, ?_⟩
          · simp only [List.take_succ_cons, List.take_zero]
            exact EncodeRune_four b b1 b2 b3 g0 g1 (by omega) (by omega) (by omega) (by omega)
              (by omega) (by omega)
              (fun h => by have := g4 h; omega) (fun h => by have := g5 h; omega)
          · intro more
            simp [DecodeRune, hb2, hf, hc1, hc2, hc3]
          · simp
            omega


/-! ## JSON strings -/

theorem emit_some (bs x r : List Nat) : emit bs (some (x, r)) = some (bs ++ x, r) := rfl

theorem unquoteAux_quote (f : Nat) (rest : List Nat) :
    unquoteAux (f + 1) (34 :: rest) = some ([], rest) := by
  simp [unquoteAux]

theorem unquoteAux_plain (f b : Nat) (rest : List Nat) (h1 : b ≠ 34) (h2 : b ≠ 92)
    (h3 : 0x20 ≤ b) (h4 : b < 0x80) :
    unquoteAux (f + 1) (b :: rest) = emit [b] (unquoteAux f rest) := by
  have h5 : ¬ b < 0x20 := by omega
  simp [unquoteAux, h1, h2, h5, h4]

theorem unquoteAux_multi (f b : Nat) (rest : List Nat) (h : 0x80 ≤ b) :
    unquoteAux (f + 1) (b :: rest)
      = emit (EncodeRune (DecodeRune (b :: rest)).1)
          (unquoteAux f ((b :: rest).drop (DecodeRune (b :: rest)).2)) := by
  have h1 : b ≠ 34 := by omega
  have h2 : b ≠ 92 := by omega
  have h3 : ¬ b < 0x20 := by omega
  have h4 : ¬ b < 0x80 := by omega
  simp only [unquoteAux, h1, h2, h3, h4, if_false]

theorem unquoteAux_u (f h1 h2 h3 h4 rr : Nat) (rest : List Nat)
    (hg : getu4 (92 :: 117 :: h1 :: h2 :: h3 :: h4 :: rest) = some rr)
    (hns : ¬ (0xD800 ≤ rr ∧ rr < 0xE000)) :
    unquoteAux (f + 1) (92 :: 117 :: h1 :: h2 :: h3 :: h4 :: rest)
      = emit (EncodeRune rr) (unquoteAux f rest) := by
  simp [unquoteAux, hg, hns]

theorem hexVal_hex (n : Nat) (h : n < 16) : hexVal (hex n) = some n := by
  unfold hex hexVal
  split_ifs
  all_goals try simp
  all_goals omega

theorem getu4_byte (b : Nat) (rest : List Nat) (h : b < 256) :
    getu4 (92 :: 117 :: 48 :: 48 :: hex (b / 16) :: hex (b % 16) :: rest) = some b := by
  have e1 : hexVal 48 = some 0 := by decide
  have e2 := hexVal_hex (b / 16) (by omega)
  have e3 := hexVal_hex (b % 16) (by omega)
  simp only [getu4, e1, e2, e3, Option.some.injEq]
  omega

theorem escapeByte_unquote (f b : Nat) (rest : List Nat) (hb : b < 0x80)
    (hs : htmlSafe b = false) :
    unquoteAux (f + 1) (escapeByte b ++ rest) = emit [b] (unquoteAux f rest) := by
  unfold escapeByte
  split_ifs with c1 c2 c3 c4 c5 c6
  · rcases c1 with rfl | rfl <;> simp [unquoteAux]
  · subst c2; simp [unquoteAux]
  · subst c3; simp [unquoteAux]
  · subst c4; simp [unquoteAux]
  · subst c5; simp [unquoteAux]
  · subst c6; simp [unquoteAux]
  · have hg := getu4_byte b rest (by omega)
    have hns : ¬ (0xD800 ≤ b ∧ b < 0xE000) := by omega
    have he : EncodeRune b = [b] := by
      unfold EncodeRune
      rw [if_pos (by omega)]
    simp only [List.cons_append, List.nil_append]
    rw [unquoteAux_u f _ _ _ _ b rest hg hns, he]


theorem escapeByte_length_pos (b : Nat) : 0 < (escapeByte b).length := by
  unfold escapeByte
  split_ifs <;> simp

theorem DecodeRune_ascii (b : Nat) (rest : List Nat) (h : b < 0x80) :
    DecodeRune (b :: rest) = (b, 1) := by
  simp [DecodeRune, h]

/-- What `unquoteAux` makes of the escaped form of a string: the string itself
with every invalid byte replaced by U+FFFD. -/
theorem unquote_appendString (fuel : Nat) :
    ∀ s : List Nat, s.length ≤ fuel →
      ∀ (fuel2 : Nat) (rest : List Nat), (appendStringAux fuel s).length < fuel2 →
        unquoteAux fuel2 (appendStringAux fuel s ++ 34 :: rest)
          = some (coerceAux fuel s, rest) := by
  induction fuel with
  | zero =>
    intro s hs fuel2 rest hf
    obtain ⟨f, rfl⟩ : ∃ f, fuel2 = f + 1 := ⟨fuel2 - 1, by omega⟩
    simp [appendStringAux, coerceAux, unquoteAux_quote]
  | succ fuel ih =>
    intro s hs fuel2 rest hf
    obtain ⟨f, rfl⟩ : ∃ f, fuel2 = f + 1 := ⟨fuel2 - 1, by omega⟩
    cases s with
    | nil => simp [appendStringAux, coerceAux, unquoteAux_quote]
    | cons b t =>
      have ht : t.length ≤ fuel := by simpa using hs
      by_cases hb : b < 0x80
      · -- an ASCII byte
        have hco : coerceAux (fuel + 1) (b :: t) = b :: coerceAux fuel t := by
          have hne : b ≠ RuneError := by
            simp only [RuneError]; omega
          simp [coerceAux, DecodeRune_ascii b t hb, hne]
        rw [hco]
        cases hsafe : htmlSafe b with
        | true =>
          have henc : appendStringAux (fuel + 1) (b :: t) = b :: appendStringAux fuel t := by
            simp [appendStringAux, hb, hsafe]
          rw [henc] at hf ⊢
          simp only [htmlSafe, decide_eq_true_eq] at hsafe
          simp only [List.length_cons] at hf
          rw [List.cons_append, unquoteAux_plain f b _ (by omega) (by omega) (by omega) hb,
            ih t ht f rest (by omega), emit_some]
          rfl
        | false =>
          have henc : appendStringAux (fuel + 1) (b :: t)
              = escapeByte b ++ appendStringAux fuel t := by
            simp [appendStringAux, hb, hsafe]
          rw [henc] at hf ⊢
          have hpos := escapeByte_length_pos b
          simp only [List.length_append] at hf
          rw [List.append_assoc, escapeByte_unquote f b _ hb hsafe,
            ih t ht f rest (by omega), emit_some]
          rfl
      · -- the leading byte of a multi-byte rune, or an invalid byte
        have hb2 : 0x80 ≤ b := by omega
        cases hd : DecodeRune (b :: t) with
        | mk c size =>
          by_cases hinv : c = RuneError ∧ size = 1
          · have hco : coerceAux (fuel + 1) (b :: t)
                = EncodeRune RuneError ++ coerceAux fuel t := by
              simp [coerceAux, hd, hinv]
            have henc : appendStringAux (fuel + 1) (b :: t)
                = [92, 117, 102, 102, 102, 100] ++ appendStringAux fuel t := by
              simp [appendStringAux, hb, hd, hinv]
            rw [henc] at hf ⊢
            rw [hco]
            simp only [List.length_append, List.length_cons, List.length_nil] at hf
            have hg : getu4 (92 :: 117 :: 102 :: 102 :: 102 :: 100
                :: (appendStringAux fuel t ++ 34 :: rest)) = some RuneError := by
              simp [getu4, hexVal, RuneError]
            have hns : ¬ (0xD800 ≤ RuneError ∧ RuneError < 0xE000) := by
              simp [RuneError]
            simp only [List.cons_append, List.nil_append]
            rw [unquoteAux_u f _ _ _ _ RuneError _ hg hns, ih t ht f rest (by omega), emit_some]
          · obtain ⟨m1, m2, m3, m4, m5⟩ := DecodeRune_multi b t c size hb2 hd hinv
            have hdl : ((b :: t).drop size).length ≤ fuel := by
              simp only [List.length_drop, List.length_cons] at *
              omega
            have hco : coerceAux (fuel + 1) (b :: t)
                = (b :: t).take size ++ coerceAux fuel ((b :: t).drop size) := by
              simp [coerceAux, hd, hinv]
            rw [hco]
            by_cases hls : c = 0x2028 ∨ c = 0x2029
            · have henc : appendStringAux (fuel + 1) (b :: t)
                  = [92, 117, 50, 48, 50, hex (c % 16)]
                    ++ appendStringAux fuel ((b :: t).drop size) := by
                simp [appendStringAux, hb, hd, hinv, hls]
              rw [henc] at hf ⊢
              simp only [List.length_append, List.length_cons, List.length_nil] at hf
              have hg : getu4 (92 :: 117 :: 50 :: 48 :: 50 :: hex (c % 16)
                  :: (appendStringAux fuel ((b :: t).drop size) ++ 34 :: rest)) = some c := by
                rcases hls with rfl | rfl <;> simp [getu4, hexVal, hex]
              have hns : ¬ (0xD800 ≤ c ∧ c < 0xE000) := by omega
              simp only [List.cons_append, List.nil_append]
              rw [unquoteAux_u f _ _ _ _ c _ hg hns, ih _ hdl f rest (by omega), emit_some, m3]
            · have henc : appendStringAux (fuel + 1) (b :: t)
                  = (b :: t).take size ++ appendStringAux fuel ((b :: t).drop size) := by
                simp [appendStringAux, hb, hd, hinv, hls]
              rw [henc] at hf ⊢
              simp only [List.length_append] at hf
              have htl : ((b :: t).take size).length = size := by
                rw [List.length_take]; omega
              have hf2 : (appendStringAux fuel ((b :: t).drop size)).length < f := by omega
              obtain ⟨b0, tk, htk⟩ : ∃ b0 tk, (b :: t).take size = b0 :: tk := by
                cases hx : (b :: t).take size with
                | nil => rw [hx] at htl; simp at htl; omega
                | cons b0 tk => exact ⟨b0, tk, rfl⟩
              have hb0 : 0x80 ≤ b0 := m5 b0 (by rw [htk]; exact List.mem_cons_self _ _)
              have hdec := m4 (appendStringAux fuel ((b :: t).drop size) ++ 34 :: rest)
              rw [List.append_assoc]
              rw [htk] at hdec htl ⊢
              rw [List.cons_append, unquoteAux_multi f b0 _ hb0]
              rw [List.cons_append] at hdec
              rw [hdec]
              simp only
              have hdrop : (b0 :: (tk ++ (appendStringAux fuel ((b :: t).drop size)
                  ++ 34 :: rest))).drop size
                  = appendStringAux fuel ((b :: t).drop size) ++ 34 :: rest := by
                rw [← List.cons_append]
                rw [List.drop_left' htl]
              rw [hdrop, ih _ hdl f rest hf2, emit_some, m3, htk]


theorem DecodeRune_size_pos (b : Nat) (t : List Nat) (c size : Nat)
    (hd : DecodeRune (b :: t) = (c, size)) : 1 ≤ size ∧ size ≤ (b :: t).length := by
  by_cases hb : b < 0x80
  · rw [DecodeRune_ascii b t hb] at hd
    simp only [Prod.mk.injEq] at hd
    simp only [List.length_cons]
    omega
  · by_cases hinv : c = RuneError ∧ size = 1
    · simp only [List.length_cons]
      omega
    · obtain ⟨m1, m2, _⟩ := DecodeRune_multi b t c size (by omega) hd hinv
      omega

/-- Coercion leaves a valid string as it is. -/
theorem coerceAux_of_valid (fuel : Nat) :
    ∀ s : List Nat, s.length ≤ fuel → ValidAux fuel s = true → coerceAux fuel s = s := by
  induction fuel with
  | zero =>
    intro s hs _
    have : s = [] := List.length_eq_zero.mp (by omega)
    subst this
    rfl
  | succ fuel ih =>
    intro s hs hv
    cases s with
    | nil => rfl
    | cons b t =>
      cases hd : DecodeRune (b :: t) with
      | mk c size =>
        obtain ⟨p1, p2⟩ := DecodeRune_size_pos b t c size hd
        simp only [ValidAux, hd] at hv
        simp only [coerceAux, hd]
        split_ifs at hv with hinv
        rw [if_neg hinv]
        have hdl : ((b :: t).drop size).length ≤ fuel := by
          simp only [List.length_drop, List.length_cons] at *
          omega
        rw [ih _ hdl hv, List.take_append_drop]

theorem coerceUTF8_of_valid (s : GoString) (h : Valid s = true) : coerceUTF8 s = s :=
  coerceAux_of_valid s.length s (le_refl _) h

/-! ## Decimal integers -/

theorem formatBits_digits (fuel : Nat) :
    ∀ n : Nat, ∀ d ∈ formatBits fuel n, 48 ≤ d ∧ d ≤ 57 := by
  induction fuel with
  | zero => intro n d hd; simp [formatBits] at hd
  | succ fuel ih =>
    intro n d hd
    simp only [formatBits] at hd
    split_ifs at hd with h
    · simp only [List.mem_singleton] at hd
      omega
    · simp only [List.mem_append, List.mem_singleton] at hd
      rcases hd with hd | hd
      · exact ih _ d hd
      · omega

theorem digitsValue_append (xs : List Nat) (d : Nat) :
    digitsValue (xs ++ [d]) = 10 * digitsValue xs + (d - 48) := by
  simp [digitsValue, List.foldl_append]

theorem formatBits_value (fuel : Nat) :
    ∀ n : Nat, n < fuel → digitsValue (formatBits fuel n) = n := by
  induction fuel with
  | zero => intro n h; omega
  | succ fuel ih =>
    intro n h
    simp only [formatBits]
    split_ifs with h10
    · simp [digitsValue]
    · rw [digitsValue_append, ih (n / 10) (by omega)]
      omega

theorem formatBits_head (fuel : Nat) :
    ∀ n : Nat, n < fuel → 0 < n →
      ∃ d tl, formatBits fuel n = d :: tl ∧ 49 ≤ d ∧ d ≤ 57 := by
  induction fuel with
  | zero => intro n h; omega
  | succ fuel ih =>
    intro n h hpos
    simp only [formatBits]
    split_ifs with h10
    · exact ⟨48 + n, [], rfl, by omega, by omega⟩
    · obtain ⟨d, tl, e, h1, h2⟩ := ih (n / 10) (by omega) (by omega)
      exact ⟨d, tl ++ [48 + n % 10], by rw [e]; rfl, h1, h2⟩

theorem formatNat_zero : formatNat 0 = [48] := by decide

theorem formatNat_digits (n : Nat) : ∀ d ∈ formatNat n, 48 ≤ d ∧ d ≤ 57 :=
  formatBits_digits (n + 1) n

theorem formatNat_value (n : Nat) : digitsValue (formatNat n) = n :=
  formatBits_value (n + 1) n (by omega)

/-- The decimal form starts with a digit, and with a zero only for zero itself. -/
theorem formatNat_head (n : Nat) :
    ∃ d tl, formatNat n = d :: tl ∧ 48 ≤ d ∧ d ≤ 57 ∧ (d = 48 → tl = []) := by
  rcases Nat.eq_zero_or_pos n with h | h
  · subst h
    exact ⟨48, [], formatNat_zero, by omega, by omega, fun _ => rfl⟩
  · obtain ⟨d, tl, e, h1, h2⟩ := formatBits_head (n + 1) n (by omega) h
    exact ⟨d, tl, e, by omega, h2, fun h => by omega⟩

theorem takeDigits_append (ds : List Nat) (c : Nat) (r : List Nat)
    (hds : ∀ d ∈ ds, 48 ≤ d ∧ d ≤ 57) (hc : isDigit c = false) :
    takeDigits (ds ++ c :: r) = (ds, c :: r) := by
  induction ds with
  | nil => simp [takeDigits, hc]
  | cons d ds ih =>
    have hd : isDigit d = true := by
      have := hds d (List.mem_cons_self _ _)
      simp [isDigit, this]
    have := ih (fun x hx => hds x (List.mem_cons_of_mem _ hx))
    simp [takeDigits, hd, this]

/-- Reading back the decimal form of an `int64` in front of a closing brace. -/
theorem parseInt64_FormatInt (t : Int) (r : List Nat)
    (h1 : -9223372036854775808 ≤ t) (h2 : t ≤ 9223372036854775807) :
    parseInt64 (FormatInt t ++ 125 :: r) = some (t, 125 :: r) := by
  obtain ⟨d, tl, e, g1, g2, g3⟩ := formatNat_head t.natAbs
  have hdig := formatNat_digits t.natAbs
  have hval := formatNat_value t.natAbs
  have htd : takeDigits (formatNat t.natAbs ++ 125 :: r) = (formatNat t.natAbs, 125 :: r) :=
    takeDigits_append _ 125 r hdig (by decide)
  have hlead : ¬ ((formatNat t.natAbs).head? = some 48 ∧ 1 < (formatNat t.natAbs).length) := by
    rw [e]
    simp only [List.head?_cons, Option.some.injEq, List.length_cons, not_and]
    intro h
    rw [g3 h]
    simp
  have hnil : formatNat t.natAbs ≠ [] := by rw [e]; simp
  unfold parseInt64 FormatInt
  by_cases hneg : t < 0
  · simp only [hneg, if_true, List.cons_append, List.head?_cons, List.drop_succ_cons,
      List.drop_zero, htd]
    simp only [hnil, hlead, if_false]
    have hv : -((digitsValue (formatNat t.natAbs) : Nat) : Int) = t := by
      rw [hval]; omega
    simp [hv, h1, h2]
  · have hhead : ¬ ((formatNat t.natAbs ++ 125 :: r).head? = some 45) := by
      rw [e]
      simp only [List.cons_append, List.head?_cons, Option.some.injEq]
      omega
    simp only [hneg, if_false, hhead, htd]
    simp only [hnil, hlead, if_false]
    have hv : ((digitsValue (formatNat t.natAbs) : Nat) : Int) = t := by
      rw [hval]; omega
    simp [hv, h1, h2]


/-! ## The fact document -/

theorem skipWS_cons (c : Nat) (r : List Nat) (h : c ≠ 32 ∧ c ≠ 9 ∧ c ≠ 10 ∧ c ≠ 13) :
    skipWS (c :: r) = c :: r := by
  simp [skipWS, h.1, h.2.1, h.2.2.1, h.2.2.2]

theorem parseString_appendString (n : Nat) (s : List Nat) (r : List Nat) (h : s.length ≤ n) :
    parseString (34 :: (appendStringAux n s ++ 34 :: r)) = some (coerceAux n s, r) := by
  simp only [parseString]
  exact unquote_appendString n s h _ r (by simp)

theorem FormatInt_head (t : Int) :
    ∃ c tl, FormatInt t = c :: tl ∧ (c = 45 ∨ (48 ≤ c ∧ c ≤ 57)) := by
  obtain ⟨d, tl, e, g1, g2, _⟩ := formatNat_head t.natAbs
  unfold FormatInt
  split_ifs
  · exact ⟨45, _, rfl, Or.inl rfl⟩
  · exact ⟨d, tl, e, Or.inr ⟨g1, g2⟩⟩

theorem identityKey_bytes :
    strBytes "\x7b\"identity\":" = 123 :: 34 :: (appendStringAux 8 (strBytes "identity") ++ [34, 58]) := by
  decide

theorem timeKey_bytes :
    strBytes ",\"time\":" = 44 :: 34 :: (appendStringAux 4 (strBytes "time") ++ [34, 58]) := by
  decide

/-- Decoding the document `json.Marshal` writes for a `Factdata` whose time is an
`int64` gives the identity coerced to valid UTF-8 and the time. -/
theorem Unmarshal_marshalBytes (d : Factdata)
    (h1 : -9223372036854775808 ≤ d.Time) (h2 : d.Time ≤ 9223372036854775807) :
    Unmarshal (marshalBytes d) = some { Identity := coerceUTF8 d.Identity, Time := d.Time } := by
  obtain ⟨c, tl, hc, hcd⟩ := FormatInt_head d.Time
  have hnum := parseInt64_FormatInt d.Time [] h1 h2
  have hshape : marshalBytes d
      = 123 :: 34 :: (appendStringAux 8 (strBytes "identity") ++ 34 :: 58 :: 34 ::
          (appendStringAux d.Identity.length d.Identity ++ 34 :: 44 :: 34 ::
            (appendStringAux 4 (strBytes "time") ++ 34 :: 58 :: (FormatInt d.Time ++ [125])))) := by
    have e3 : strBytes "\x7d" = [125] := by decide
    simp only [marshalBytes, appendString, identityKey_bytes, timeKey_bytes, e3,
      List.append_assoc, List.cons_append, List.nil_append]
  have hlen : 2 ≤ (marshalBytes d).length := by
    rw [hshape]
    simp only [List.length_cons]
    omega
  obtain ⟨f, hf⟩ : ∃ f, (marshalBytes d).length = f + 2 :=
    ⟨(marshalBytes d).length - 2, by omega⟩
  have k1 : coerceAux 8 (strBytes "identity") = strBytes "identity" := by decide
  have k2 : coerceAux 4 (strBytes "time") = strBytes "time" := by decide
  have f1 : foldEq (strBytes "identity") (strBytes "identity") = true := by decide
  have f2 : foldEq (strBytes "time") (strBytes "identity") = false := by decide
  have f3 : foldEq (strBytes "time") (strBytes "time") = true := by decide
  have hws : skipWS (FormatInt d.Time ++ [125]) = FormatInt d.Time ++ [125] := by
    rw [hc, List.cons_append]
    exact skipWS_cons _ _ (by omega)
  have hq : (FormatInt d.Time ++ [125]).head? ≠ some 34 := by
    rw [hc]
    simp only [List.cons_append, List.head?_cons, ne_eq, Option.some.injEq]
    omega
  unfold Unmarshal
  rw [hf]
  rw [hshape]
  rw [skipWS_cons 123 _ (by decide)]
  simp only
  rw [skipWS_cons 34 _ (by decide)]
  simp only [parseMembers]
  rw [skipWS_cons 34 _ (by decide), parseString_appendString 8 _ _ (by decide), k1]
  simp only
  rw [skipWS_cons 58 _ (by decide)]
  simp only
  rw [skipWS_cons 34 _ (by decide)]
  simp only [parseValue, List.head?_cons, if_true]
  rw [parseString_appendString _ _ _ (le_refl _)]
  simp only [Option.map_some', storeField, f1, if_true]
  rw [skipWS_cons 44 _ (by decide)]
  simp only
  rw [skipWS_cons 34 _ (by decide), parseString_appendString 4 _ _ (by decide), k2]
  simp only
  rw [skipWS_cons 58 _ (by decide)]
  simp only
  rw [hws]
  simp only [hq, if_false, hnum, Option.map_some', f2, f3, if_true]
  rw [skipWS_cons 125 _ (by decide)]
  simp [skipWS, coerceUTF8]


/-! ## The published file -/

theorem nextSuffix_digits (r : Nat) : ∀ d ∈ nextSuffix r, 48 ≤ d ∧ d ≤ 57 := by
  intro d hd
  exact formatNat_digits _ d (List.mem_of_mem_drop hd)

/-- The temp file of `write` (no name prefix, digits only) and the file of
`Expose` (prefix acmefacts) never have the same name. -/
theorem tempName_ne (dir : GoString) (r0 r : Nat) :
    tempName dir [] r ≠ tempName dir (strBytes "acmefacts") r0 := by
  intro h
  simp only [tempName, List.append_assoc, List.nil_append] at h
  have h2 := List.append_cancel_left h
  simp only [List.cons_append, List.nil_append, List.cons.injEq, true_and] at h2
  have e : strBytes "acmefacts" = 97 :: strBytes "cmefacts" := by decide
  rw [e, List.cons_append] at h2
  have hmem : 97 ∈ nextSuffix r := by rw [h2]; exact List.mem_cons_self _ _
  have := nextSuffix_digits r 97 hmem
  omega

theorem temp_ne_of_name (tmpdir : GoString) (r0 : Nat) (env : WriteEnv) (fs0 : FS) :
    ∀ tf fs1, TempFile tmpdir [] env.rand env.tempErr fs0 = Except.ok (tf, fs1) →
      tf ≠ tempName tmpdir (strBytes "acmefacts") r0 := by
  intro tf fs1 h
  obtain ⟨_, _, r, hr⟩ := TempFile_ok _ _ _ _ _ _ _ h
  rw [hr]
  exact tempName_ne tmpdir r0 r

/-- The steps of `write` follow one another from the file system at the call to
the one at the return. -/
theorem write_steps_chain (tmpdir identity : GoString) (fname : Path) (env : WriteEnv)
    (fs0 : FS) :
    (∃ s tl, (write tmpdir identity fname env fs0).steps = s :: tl ∧ s.pre = fs0)
    ∧ (∃ ini s, (write tmpdir identity fname env fs0).steps = ini ++ [s]
        ∧ s.post = (write tmpdir identity fname env fs0).fs)
    ∧ (write tmpdir identity fname env fs0).steps.Chain' (fun a b => a.post = b.pre) := by
  unfold write
  cases hT : TempFile tmpdir [] env.rand env.tempErr fs0 with
  | error e =>
    refine ⟨⟨_, [], rfl, rfl⟩, ⟨[], _, rfl, rfl⟩, ?_⟩
    simp
  | ok p =>
    obtain ⟨tf, fs1⟩ := p
    simp only [Marshal]
    cases hw : env.writeFault with
    | ok =>
      cases hr : env.renameErr with
      | true =>
        simp only [WriteFile, Rename, finishWrite, if_true]
        refine ⟨⟨_, _, rfl, rfl⟩, ⟨_, _, rfl, rfl⟩, ?_⟩
        simp
      | false =>
        simp only [WriteFile, Rename, finishWrite, store_apply_self]
        refine ⟨⟨_, _, rfl, rfl⟩, ⟨_, _, rfl, rfl⟩, ?_⟩
        simp
    | openFails =>
      simp only [WriteFile, finishWrite]
      refine ⟨⟨_, _, rfl, rfl⟩, ⟨_, _, rfl, rfl⟩, ?_⟩
      simp
    | shortWrite n =>
      simp only [WriteFile, finishWrite]
      refine ⟨⟨_, _, rfl, rfl⟩, ⟨_, _, rfl, rfl⟩, ?_⟩
      simp

/-- C3: with the published file in place, a call of `write` that returns an
error leaves the content of the published path exactly as it was; of the file
operations of `write`, which follow one another from the state at the call
to the state at the return, only the rename can change the published path;
and the loop of `Expose`, at a tick, goes on with the rest of its schedule
from the file system `write` left, whatever `write` returned. -/
theorem C3_failed_write_keeps_file (tmpdir identity : GoString) (fname : Path)
    (env : WriteEnv) (fs : FS) (hex : fs fname ≠ none) :
    ((write tmpdir identity fname env fs).err ≠ none →
        (write tmpdir identity fname env fs).fs fname = fs fname)
    ∧ (∀ s ∈ (write tmpdir identity fname env fs).steps,
        s.op ≠ FsOp.rename → s.post fname = s.pre fname)
    ∧ (∃ s tl, (write tmpdir identity fname env fs).steps = s :: tl ∧ s.pre = fs)
    ∧ (∃ ini s, (write tmpdir identity fname env fs).steps = ini ++ [s]
        ∧ s.post = (write tmpdir identity fname env fs).fs)
    ∧ (write tmpdir identity fname env fs).steps.Chain' (fun a b => a.post = b.pre)
    ∧ (∀ (w : Wait) (rest : List (Wait × WriteEnv)),
        goSelect (withInterval 60 w) = some Branch.tick →
        (exposeLoop tmpdir identity fname ((w, env) :: rest) fs).status
            = (exposeLoop tmpdir identity fname rest
                (write tmpdir identity fname env fs).fs).status
        ∧ (exposeLoop tmpdir identity fname ((w, env) :: rest) fs).fs
            = (exposeLoop tmpdir identity fname rest
                (write tmpdir identity fname env fs).fs).fs
        ∧ (exposeLoop tmpdir identity fname ((w, env) :: rest) fs).errs
            = (write tmpdir identity fname env fs).err
              :: (exposeLoop tmpdir identity fname rest
                  (write tmpdir identity fname env fs).fs).errs) := by
  obtain ⟨h1, _, _, _, h5, _, _⟩ :=
    write_spec tmpdir identity fname env fs (temp_ne_of_exists tmpdir fname env fs hex)
  obtain ⟨c1, c2, c3⟩ := write_steps_chain tmpdir identity fname env fs
  refine ⟨h5, h1, c1, c2, c3, ?_⟩
  intro w rest hsel
  rw [exposeLoop_tick _ _ _ _ _ _ _ hsel]
  exact ⟨rfl, rfl, rfl⟩

theorem exposeLoop_observed (tmpdir identity : GoString) (fname : Path)
    (ticks : List (Wait × WriteEnv)) :
    ∀ fs : FS, (exposeLoop tmpdir identity fname ticks fs).observed
      = (exposeSteps tmpdir identity fname ticks fs).map (fun s => s.post) := by
  induction ticks with
  | nil => intro fs; simp [exposeLoop, exposeSteps]
  | cons p rest ih =>
    intro fs
    obtain ⟨w, env⟩ := p
    cases hsel : goSelect (withInterval 60 w) with
    | none => simp only [exposeLoop, exposeSteps, hsel]; exact ih fs
    | some br =>
      cases br with
      | done => simp [exposeLoop, exposeSteps, hsel]
      | tick => simp [exposeLoop, exposeSteps, hsel, ih]

theorem exposeSteps_head (tmpdir identity : GoString) (fname : Path)
    (ticks : List (Wait × WriteEnv)) :
    ∀ fs : FS, ∀ s ∈ (exposeSteps tmpdir identity fname ticks fs).head?, s.pre = fs := by
  induction ticks with
  | nil => intro fs s hs; simp [exposeSteps] at hs
  | cons p rest ih =>
    intro fs s hs
    obtain ⟨w, env⟩ := p
    cases hsel : goSelect (withInterval 60 w) with
    | none =>
      simp only [exposeSteps, hsel] at hs
      exact ih fs s hs
    | some br =>
      cases br with
      | done => simp [exposeSteps, hsel] at hs
      | tick =>
        simp only [exposeSteps, hsel] at hs
        obtain ⟨⟨s0, tl, e, hpre⟩, _, _⟩ := write_steps_chain tmpdir identity fname env fs
        rw [e] at hs
        simp only [List.cons_append, List.head?_cons, Option.mem_def, Option.some.injEq] at hs
        rw [← hs]
        exact hpre

theorem exposeSteps_chain (tmpdir identity : GoString) (fname : Path)
    (ticks : List (Wait × WriteEnv)) :
    ∀ fs : FS,
      (exposeSteps tmpdir identity fname ticks fs).Chain' (fun a b => a.post = b.pre) := by
  induction ticks with
  | nil => intro fs; simp [exposeSteps]
  | cons p rest ih =>
    intro fs
    obtain ⟨w, env⟩ := p
    cases hsel : goSelect (withInterval 60 w) with
    | none => simp only [exposeSteps, hsel]; exact ih fs
    | some br =>
      cases br with
      | done => simp [exposeSteps, hsel]
      | tick =>
        simp only [exposeSteps, hsel]
        obtain ⟨_, ⟨ini, sl, e, hpost⟩, hch⟩ := write_steps_chain tmpdir identity fname env fs
        refine List.Chain'.append hch (ih _) ?_
        intro x hx y hy
        rw [e, List.getLast?_append, List.getLast?_singleton] at hx
        simp only [Option.or, Option.mem_def, Option.some.injEq] at hx
        subst hx
        rw [hpost]
        exact (exposeSteps_head tmpdir identity fname rest _ y hy).symm

theorem exposeSteps_rename (tmpdir identity : GoString) (fname : Path)
    (ticks : List (Wait × WriteEnv)) :
    ∀ fs : FS, fs fname ≠ none →
      ∀ s ∈ exposeSteps tmpdir identity fname ticks fs,
        s.op ≠ FsOp.rename → s.post fname = s.pre fname := by
  induction ticks with
  | nil => intro fs _ s hs; simp [exposeSteps] at hs
  | cons p rest ih =>
    intro fs hex s hs
    obtain ⟨w, env⟩ := p
    cases hsel : goSelect (withInterval 60 w) with
    | none =>
      simp only [exposeSteps, hsel] at hs
      exact ih fs hex s hs
    | some br =>
      cases br with
      | done => simp [exposeSteps, hsel] at hs
      | tick =>
        simp only [exposeSteps, hsel, List.mem_append] at hs
        obtain ⟨h1, _, _, _, _, _, h7⟩ :=
          write_spec tmpdir identity fname env fs (temp_ne_of_exists tmpdir fname env fs hex)
        rcases hs with hs | hs
        · exact h1 s hs
        · have hex2 : (write tmpdir identity fname env fs).fs fname ≠ none := by
            rcases h7 with h7 | h7
            · rw [h7]; exact hex
            · rw [h7]; simp
          exact ih _ hex2 s hs

/-- While every call of `write` fails, the published file stays empty. -/
theorem exposeLoop_all_failed (tmpdir identity : GoString) (fname : Path)
    (ticks : List (Wait × WriteEnv)) :
    ∀ fs : FS, fs fname = some [] →
      (∀ e ∈ (exposeLoop tmpdir identity fname ticks fs).errs, e ≠ none) →
      ∀ s ∈ (exposeLoop tmpdir identity fname ticks fs).observed, s fname = some [] := by
  induction ticks with
  | nil => intro fs _ _ s hs; simp [exposeLoop] at hs
  | cons p rest ih =>
    intro fs h herr s hs
    obtain ⟨w, env⟩ := p
    cases hsel : goSelect (withInterval 60 w) with
    | none =>
      have e : exposeLoop tmpdir identity fname ((w, env) :: rest) fs
          = exposeLoop tmpdir identity fname rest fs := by
        simp only [exposeLoop, hsel]
      rw [e] at herr hs
      exact ih fs h herr s hs
    | some br =>
      cases br with
      | done => simp [exposeLoop, hsel] at hs
      | tick =>
        rw [exposeLoop_tick _ _ _ _ _ _ _ hsel] at herr hs
        simp only [List.mem_cons, forall_eq_or_imp] at herr
        obtain ⟨herr1, herr2⟩ := herr
        have hex : fs fname ≠ none := by simp [h]
        obtain ⟨_, h2, _, h4, h5, _, _⟩ :=
          write_spec tmpdir identity fname env fs (temp_ne_of_exists tmpdir fname env fs hex)
        have hfin : (write tmpdir identity fname env fs).fs fname = some [] := by
          rw [h5 herr1]; exact h
        simp only [List.mem_append, List.mem_map] at hs
        rcases hs with ⟨st, hst, rfl⟩ | hs
        · rcases h2 st hst with h2 | h2
          · rw [h2]; exact h
          · have := h4 st hst h2
            rw [hfin] at this
            simp only [Option.some.injEq] at this
            exact absurd this.symm (marshalBytes_ne_nil _)
        · exact ih _ hfin herr2 s hs

/-- C4 as stated fails: in a run of `Expose` on a machine without files, the
file at the path handed to discovery is empty at the moment it is handed
over; the empty content is not the JSON document of any `Factdata`, and
decoding it fails. -/
theorem C4_counterexample :
    (Expose { tmpdir := strBytes "/tmp", identity := strBytes "node1", rand := [1],
              tempErr := false,
              firstWrite := { rand := [2], tempErr := false, now := 1700000000,
                              writeFault := WriteFault.ok, renameErr := false },
              ticks := [] } emptyFS).map
        (fun run => (run.observed.map (fun s => s run.factSourceFile)).head?)
      = some (some (some []))
    ∧ Unmarshal [] = none
    ∧ (∀ d : Factdata, marshalBytes d ≠ []) := by
  refine ⟨by decide, by decide, marshalBytes_ne_nil⟩

/-- C4, amended: in every file system state of a run of `Expose`, from the
moment the path is handed to discovery until the loop returns, the file at
that path exists and its content is either empty or the complete JSON
document of a `Factdata` with the identity of the process; it is empty at
the moment of the handover and stays empty until the rename of the first
successful call of `write`: while every call of `write` has failed it is
empty in every state, and along the file operations of the run, which follow
one another from the state of the handover, only a rename changes it, so it
goes from empty to a complete document at a rename and nowhere else; once it
is a complete document it is one in every later state; when some call of
`write` has succeeded it is a complete document when the schedule is used up;
when the loop has returned the deferred removal has taken the file away. -/
theorem C4_published_file_states (env : ExposeEnv) (fs0 : FS) (run : ExposeRun)
    (h : Expose env fs0 = some run) :
    (∃ r, run.factSourceFile = tempName env.tmpdir (strBytes "acmefacts") r)
    ∧ (∃ s rest, run.observed = s :: rest ∧ s run.factSourceFile = some [])
    ∧ (∀ s ∈ run.observed,
        s run.factSourceFile = some [] ∨ Published env.identity run.factSourceFile s)
    ∧ run.observed.Pairwise
        (fun a b => Published env.identity run.factSourceFile a →
          Published env.identity run.factSourceFile b)
    ∧ (run.status ≠ LoopStatus.returned → none ∈ run.errs →
        Published env.identity run.factSourceFile run.fs)
    ∧ (run.status = LoopStatus.returned → run.fs run.factSourceFile = none)
    ∧ ((∀ e ∈ run.errs, e ≠ none) → ∀ s ∈ run.observed, s run.factSourceFile = some [])
    ∧ (∃ fs1 : FS, fs1 run.factSourceFile = some []
        ∧ run.observed = fs1 :: (exposeOps env run.factSourceFile fs1).map (fun s => s.post)
        ∧ (∀ s ∈ (exposeOps env run.factSourceFile fs1).head?, s.pre = fs1)
        ∧ (exposeOps env run.factSourceFile fs1).Chain' (fun a b => a.post = b.pre)
        ∧ (∀ s ∈ exposeOps env run.factSourceFile fs1,
            s.op ≠ FsOp.rename → s.post run.factSourceFile = s.pre run.factSourceFile)
        ∧ (∀ s ∈ exposeOps env run.factSourceFile fs1,
            s.pre run.factSourceFile = some [] →
            Published env.identity run.factSourceFile s.post → s.op = FsOp.rename)) := by
  unfold Expose at h
  cases hT : TempFile env.tmpdir (strBytes "acmefacts") env.rand env.tempErr fs0 with
  | error e => rw [hT] at h; simp at h
  | ok p =>
    obtain ⟨f, fs1⟩ := p
    rw [hT] at h
    simp only [Option.some.injEq] at h
    obtain ⟨_, hfs1, r, hr⟩ := TempFile_ok _ _ _ _ _ _ _ hT
    have hres : fs1 f = some [] := by rw [hfs1]; exact store_apply_self _ _ _
    have hsel : goSelect (withInterval 60 { timerReady := true, doneReady := false, rnd := 0 })
        = some Branch.tick := by decide
    have hloop := exposeLoop_tick env.tmpdir env.identity f
      { timerReady := true, doneReady := false, rnd := 0 } env.firstWrite env.ticks fs1 hsel
    obtain ⟨q1, q2, _, q4⟩ := exposeLoop_reserved env.tmpdir env.identity f
      (({ timerReady := true, doneReady := false, rnd := 0 }, env.firstWrite) :: env.ticks)
      fs1 hres
    have q5 := exposeLoop_all_failed env.tmpdir env.identity f
      (({ timerReady := true, doneReady := false, rnd := 0 }, env.firstWrite) :: env.ticks)
      fs1 hres
    have hobs := exposeLoop_observed env.tmpdir env.identity f
      (({ timerReady := true, doneReady := false, rnd := 0 }, env.firstWrite) :: env.ticks) fs1
    have hops : exposeSteps env.tmpdir env.identity f
        (({ timerReady := true, doneReady := false, rnd := 0 }, env.firstWrite) :: env.ticks) fs1
        = exposeOps env f fs1 := by
      simp only [exposeSteps, hsel, exposeOps]
    have hhead := exposeSteps_head env.tmpdir env.identity f
      (({ timerReady := true, doneReady := false, rnd := 0 }, env.firstWrite) :: env.ticks) fs1
    have hchain := exposeSteps_chain env.tmpdir env.identity f
      (({ timerReady := true, doneReady := false, rnd := 0 }, env.firstWrite) :: env.ticks) fs1
    have hren := exposeSteps_rename env.tmpdir env.identity f
      (({ timerReady := true, doneReady := false, rnd := 0 }, env.firstWrite) :: env.ticks) fs1
      (by rw [hres]; simp)
    rw [hops] at hobs hhead hchain hren
    rw [hloop] at q1 q2 q4 q5 hobs
    simp only at q1 q2 q4 q5 hobs
    subst h
    simp only
    refine ⟨⟨r, hr⟩, ⟨fs1, _, rfl, hres⟩, ?_, ?_, ?_, ?_, ?_,
      ⟨fs1, hres, by rw [hobs], hhead, hchain, hren, ?_⟩⟩
    · intro s hs
      rcases List.mem_cons.mp hs with rfl | hs
      · exact Or.inl hres
      · exact q1 s hs
    · rw [List.pairwise_cons]
      refine ⟨?_, q2⟩
      intro b _ hp
      exact absurd hp (not_published_of_empty _ _ _ hres)
    · intro hst hnone
      rw [if_neg hst]
      exact q4 hnone
    · intro hst
      rw [if_pos hst]
      simp [Remove]
    · intro herr s hs
      rcases List.mem_cons.mp hs with rfl | hs
      · exact hres
      · exact q5 herr s hs
    · intro s hs hpre hpub
      by_contra hop
      have := hren s hs hop
      rw [hpre] at this
      exact not_published_of_empty _ _ _ this hpub

/-- C5 as stated fails: for the identity that is the single byte 0xFF, which is
not valid UTF-8, `write` succeeds and the published file decodes to the
identity U+FFFD (bytes EF BF BD), not to the identity that was written. -/
theorem C5_counterexample :
    (write (strBytes "/tmp") [0xFF] (tempName (strBytes "/tmp") (strBytes "acmefacts") 1)
        { rand := [2], tempErr := false, now := 1700000000,
          writeFault := WriteFault.ok, renameErr := false } emptyFS).err = none
    ∧ ((write (strBytes "/tmp") [0xFF] (tempName (strBytes "/tmp") (strBytes "acmefacts") 1)
        { rand := [2], tempErr := false, now := 1700000000,
          writeFault := WriteFault.ok, renameErr := false } emptyFS).fs
        (tempName (strBytes "/tmp") (strBytes "acmefacts") 1)).bind Unmarshal
      = some { Identity := [0xEF, 0xBF, 0xBD], Time := 1700000000 }
    ∧ ((write (strBytes "/tmp") [0xFF] (tempName (strBytes "/tmp") (strBytes "acmefacts") 1)
        { rand := [2], tempErr := false, now := 1700000000,
          writeFault := WriteFault.ok, renameErr := false } emptyFS).fs
        (tempName (strBytes "/tmp") (strBytes "acmefacts") 1)).bind Unmarshal
      ≠ some (Data [0xFF] 1700000000) := by
  decide

/-- C5, amended: for every identity that is valid UTF-8 and every `int64` time
stamp, when `write` succeeds with `Data()` returning that identity and time,
decoding the content of the published path (the file of `Expose`) gives a
`Factdata` equal to the one written. -/
theorem C5_round_trip (tmpdir identity : GoString) (r0 : Nat) (env : WriteEnv) (fs : FS)
    (hvalid : Valid identity = true)
    (hlo : -9223372036854775808 ≤ env.now) (hhi : env.now ≤ 9223372036854775807)
    (hok : (write tmpdir identity (tempName tmpdir (strBytes "acmefacts") r0) env fs).err
      = none) :
    ((write tmpdir identity (tempName tmpdir (strBytes "acmefacts") r0) env fs).fs
        (tempName tmpdir (strBytes "acmefacts") r0)).bind Unmarshal
      = some (Data identity env.now) := by
  obtain ⟨_, _, _, _, _, h6, _⟩ :=
    write_spec tmpdir identity (tempName tmpdir (strBytes "acmefacts") r0) env fs
      (temp_ne_of_name tmpdir r0 env fs)
  rw [h6 hok]
  simp only [Option.some_bind]
  rw [Unmarshal_marshalBytes (Data identity env.now) hlo hhi]
  simp only [Data]
  rw [coerceUTF8_of_valid identity hvalid]


/-- A call of `write` whose rename fails, with the published file in place. -/
theorem C3_failed_write_keeps_file_witness :
    (emptyFS.store (strBytes "/tmp/acmefacts000000001") [1, 2, 3])
        (strBytes "/tmp/acmefacts000000001") ≠ none
    ∧ (write (strBytes "/tmp") (strBytes "node1") (strBytes "/tmp/acmefacts000000001")
        renameFails (emptyFS.store (strBytes "/tmp/acmefacts000000001") [1, 2, 3])).err ≠ none
    ∧ (write (strBytes "/tmp") (strBytes "node1") (strBytes "/tmp/acmefacts000000001")
        renameFails (emptyFS.store (strBytes "/tmp/acmefacts000000001") [1, 2, 3])).fs
          (strBytes "/tmp/acmefacts000000001")
        = (emptyFS.store (strBytes "/tmp/acmefacts000000001") [1, 2, 3])
            (strBytes "/tmp/acmefacts000000001") :=
  ⟨by decide, by decide,
    (C3_failed_write_keeps_file (strBytes "/tmp") (strBytes "node1")
      (strBytes "/tmp/acmefacts000000001") renameFails
      (emptyFS.store (strBytes "/tmp/acmefacts000000001") [1, 2, 3]) (by decide)).1 (by decide)⟩

/-- A run of `Expose` on a machine with no files: a failed write, a good one, then
cancellation. -/
theorem C4_published_file_states_witness :
    ∃ run : ExposeRun, Expose sampleExpose emptyFS = some run
      ∧ run.status = LoopStatus.returned
      ∧ run.errs = [some Err.ioError, none]
      ∧ (∃ s rest, run.observed = s :: rest ∧ s run.factSourceFile = some [])
      ∧ (∀ s ∈ run.observed,
          s run.factSourceFile = some []
          ∨ Published sampleExpose.identity run.factSourceFile s)
      ∧ run.fs run.factSourceFile = none
      ∧ (run.observed.map (fun s => s run.factSourceFile)).take 7
          = List.replicate 7 (some []) :=
  have h : Expose sampleExpose emptyFS
      = some ((Expose sampleExpose emptyFS).get (by decide)) := (Option.some_get _).symm
  ⟨(Expose sampleExpose emptyFS).get (by decide), h, by decide, by decide,
    (C4_published_file_states sampleExpose emptyFS _ h).2.1,
    (C4_published_file_states sampleExpose emptyFS _ h).2.2.1,
    (C4_published_file_states sampleExpose emptyFS _ h).2.2.2.2.2.1 (by decide),
    by decide⟩

/-- A successful call of `write` for the identity node1. -/
theorem C5_round_trip_witness :
    Valid (strBytes "node1") = true
    ∧ (write (strBytes "/tmp") (strBytes "node1")
        (tempName (strBytes "/tmp") (strBytes "acmefacts") 1) goodWrite emptyFS).err = none
    ∧ ((write (strBytes "/tmp") (strBytes "node1")
        (tempName (strBytes "/tmp") (strBytes "acmefacts") 1) goodWrite emptyFS).fs
        (tempName (strBytes "/tmp") (strBytes "acmefacts") 1)).bind Unmarshal
      = some (Data (strBytes "node1") goodWrite.now) :=
  ⟨by decide, by decide,
    C5_round_trip (strBytes "/tmp") (strBytes "node1") 1 goodWrite emptyFS
      (by decide) (by decide) (by decide) (by decide)⟩

/-- C9 as stated fails: at a wait point at which both the timer and the
cancellation signal are ready and the runtime draws an even number, each of
the three loops takes the tick branch and runs its producer: the worker logs
a line, the registration sends an item, `Expose` calls `write`. -/
theorem C9_counterexample :
    goSelect (withInterval 5 { timerReady := true, doneReady := true, rnd := 0 })
      = some Branch.tick
    ∧ doWork [{ timerReady := true, doneReady := true, rnd := 0 }] initState
      = ({ allowWork := true, log := ["doing work...."] }, LoopStatus.waiting)
    ∧ registrationLoop 60 [({ timerReady := true, doneReady := true, rnd := 0 }, true)] []
      = ([helloItem], LoopStatus.waiting)
    ∧ (exposeLoop (strBytes "/tmp") (strBytes "node1")
        (tempName (strBytes "/tmp") (strBytes "acmefacts") 1)
        [({ timerReady := true, doneReady := true, rnd := 0 }, goodWrite)] emptyFS).errs
      = [none]
    ∧ (exposeLoop (strBytes "/tmp") (strBytes "node1")
        (tempName (strBytes "/tmp") (strBytes "acmefacts") 1)
        [({ timerReady := true, doneReady := true, rnd := 0 }, goodWrite)] emptyFS).status
      = LoopStatus.waiting := by
  decide

/-- C9, amended: at a wait point of each of the three loops, when only the
cancellation signal is ready the loop returns without running its producer;
when both the timer and the cancellation signal are ready the `select` takes
either branch, by the number the runtime draws: on an even number the
producer runs once more, on an odd number the loop returns; when only the
timer is ready the producer runs; when neither is ready the loop waits. The
producer runs in no step at which the timer is not ready. -/
theorem C9_select_at_wait_point (rnd : Nat) (st : MainState) (ws : List Wait)
    (interval : Int) (accepted : Bool) (rs : List (Wait × Bool))
    (output : List RegistrationItem) (tmpdir identity : GoString) (fname : Path)
    (env : WriteEnv) (ticks : List (Wait × WriteEnv)) (fs : FS) :
    -- only the cancellation signal is ready
    (doWork ({ timerReady := false, doneReady := true, rnd := rnd } :: ws) st
        = (st, LoopStatus.returned)
      ∧ registrationLoop interval
          (({ timerReady := false, doneReady := true, rnd := rnd }, accepted) :: rs) output
        = (output, LoopStatus.returned)
      ∧ (exposeLoop tmpdir identity fname
          (({ timerReady := false, doneReady := true, rnd := rnd }, env) :: ticks) fs).status
        = LoopStatus.returned
      ∧ (exposeLoop tmpdir identity fname
          (({ timerReady := false, doneReady := true, rnd := rnd }, env) :: ticks) fs).errs = []
      ∧ (exposeLoop tmpdir identity fname
          (({ timerReady := false, doneReady := true, rnd := rnd }, env) :: ticks) fs).fs = fs)
    -- both are ready
    ∧ (goSelect { timerReady := true, doneReady := true, rnd := rnd }
        = some (if rnd % 2 = 0 then Branch.tick else Branch.done)
      ∧ doWork ({ timerReady := true, doneReady := true, rnd := rnd } :: ws) st
        = (if rnd % 2 = 0 then doWork ws (workTick st) else (st, LoopStatus.returned))
      ∧ registrationLoop interval
          (({ timerReady := true, doneReady := true, rnd := rnd }, true) :: rs) output
        = (if 0 < tickDuration interval ∧ rnd % 2 = 0 then registrationLoop interval rs (output ++ [helloItem])
           else (output, LoopStatus.returned))
      ∧ (exposeLoop tmpdir identity fname
          (({ timerReady := true, doneReady := true, rnd := rnd }, env) :: ticks) fs).errs
        = (if rnd % 2 = 0 then
            (write tmpdir identity fname env fs).err
              :: (exposeLoop tmpdir identity fname ticks
                  (write tmpdir identity fname env fs).fs).errs
           else [])
      ∧ (exposeLoop tmpdir identity fname
          (({ timerReady := true, doneReady := true, rnd := rnd }, env) :: ticks) fs).status
        = (if rnd % 2 = 0 then
            (exposeLoop tmpdir identity fname ticks (write tmpdir identity fname env fs).fs).status
           else LoopStatus.returned))
    -- only the timer is ready
    ∧ (doWork ({ timerReady := true, doneReady := false, rnd := rnd } :: ws) st
        = doWork ws (workTick st)
      ∧ registrationLoop interval
          (({ timerReady := true, doneReady := false, rnd := rnd }, true) :: rs) output
        = (if 0 < tickDuration interval then registrationLoop interval rs (output ++ [helloItem])
           else registrationLoop interval rs output)
      ∧ (exposeLoop tmpdir identity fname
          (({ timerReady := true, doneReady := false, rnd := rnd }, env) :: ticks) fs).errs
        = (write tmpdir identity fname env fs).err
            :: (exposeLoop tmpdir identity fname ticks
                (write tmpdir identity fname env fs).fs).errs)
    -- neither is ready
    ∧ (doWork ({ timerReady := false, doneReady := false, rnd := rnd } :: ws) st = doWork ws st
      ∧ registrationLoop interval
          (({ timerReady := false, doneReady := false, rnd := rnd }, accepted) :: rs) output
        = registrationLoop interval rs output
      ∧ exposeLoop tmpdir identity fname
          (({ timerReady := false, doneReady := false, rnd := rnd }, env) :: ticks) fs
        = exposeLoop tmpdir identity fname ticks fs) := by
  refine ⟨⟨?_, ?_, ?_, ?_, ?_⟩, ⟨?_, ?_, ?_, ?_, ?_⟩, ⟨?_, ?_, ?_⟩, ⟨?_, ?_, ?_⟩⟩
  · simp [doWork, goSelect, withInterval, tickDuration_five]
  · simp [registrationLoop, goSelect, withInterval]
  · simp [exposeLoop, goSelect, withInterval, tickDuration_sixty]
  · simp [exposeLoop, goSelect, withInterval, tickDuration_sixty]
  · simp [exposeLoop, goSelect, withInterval, tickDuration_sixty]
  · by_cases h : rnd % 2 = 0 <;> simp [goSelect, h]
  · by_cases h : rnd % 2 = 0 <;> simp [doWork, goSelect, withInterval, tickDuration_five, h]
  · by_cases h : rnd % 2 = 0 <;> by_cases hi : 0 < tickDuration interval <;>
      simp [registrationLoop, goSelect, withInterval, publish, h, hi]
  · by_cases h : rnd % 2 = 0 <;> simp [exposeLoop, goSelect, withInterval, tickDuration_sixty, h]
  · by_cases h : rnd % 2 = 0 <;> simp [exposeLoop, goSelect, withInterval, tickDuration_sixty, h]
  · simp [doWork, goSelect, withInterval, tickDuration_five]
  · by_cases hi : 0 < tickDuration interval <;>
      simp [registrationLoop, goSelect, withInterval, publish, hi]
  · simp [exposeLoop, goSelect, withInterval, tickDuration_sixty]
  · simp [doWork, goSelect, withInterval, tickDuration_five]
  · simp [registrationLoop, goSelect, withInterval]
  · simp [exposeLoop, goSelect, withInterval, tickDuration_sixty]

end EmbeddedChoria
